import Mathlib

/-!
Shallow embedding of `src/batch_make_feeds.py` (repository trank1955/my-feeds),
a batch tool that turns a spreadsheet of (name, url) rows into synthetic RSS
feeds plus an OPML index.

Modelling conventions:
* Python strings are Lean `String`s; the string algorithms are implemented
  structurally over `List Char` so that every definition evaluates inside the
  kernel.  Python's Unicode-aware `str.strip`/`str.lower` are modelled on
  their ASCII behaviour (the repository only manipulates ASCII metacharacters;
  non-ASCII characters are passed through unchanged).
* Parsed HTML (a BeautifulSoup tree) is an inductive `Node` tree; the soup
  object itself is the root node, as BeautifulSoup's `[document]` container.
* `urllib.parse.urljoin` is modelled twice: `urljoin` is the value computed
  on the success path, following the CPython algorithm
  (scheme/netloc/path/query/fragment splitting, path merge and dot-segment
  resolution), and `urljoinE` adds the exception path — the
  `ValueError("Invalid IPv6 URL")` that `urlsplit` raises on a netloc with
  mismatched square brackets, which the extractor does not catch
  (`extract_items_genericE`).  The rarely-used `;parameters` component,
  CPython's control-byte sanitisation, `_checknetloc`'s NFKC check and the
  newer bracketed-host address validation are not modelled.
* Fallible operations return `Option`/`Except`; file writes are modelled by
  returning the text that would be written.
-/

namespace BatchMakeFeeds

/-! ### Python string primitives -/

/-- ASCII whitespace stripped by Python's `str.strip()`. -/
def isPySpace (c : Char) : Bool :=
  c = ' ' || c = '\t' || c = '\n' || c = '\r' || c = '\x0b' || c = '\x0c'

/-- Python `str.lower()` on its ASCII range: `A`-`Z` map to `a`-`z`, every
other character is unchanged. -/
def lowerChar (c : Char) : Char :=
  match c with
  | 'A' => 'a' | 'B' => 'b' | 'C' => 'c' | 'D' => 'd' | 'E' => 'e' | 'F' => 'f'
  | 'G' => 'g' | 'H' => 'h' | 'I' => 'i' | 'J' => 'j' | 'K' => 'k' | 'L' => 'l'
  | 'M' => 'm' | 'N' => 'n' | 'O' => 'o' | 'P' => 'p' | 'Q' => 'q' | 'R' => 'r'
  | 'S' => 's' | 'T' => 't' | 'U' => 'u' | 'V' => 'v' | 'W' => 'w' | 'X' => 'x'
  | 'Y' => 'y' | 'Z' => 'z'
  | _ => c

/-- Drop the longest suffix whose characters all satisfy `p`. -/
def dropTrail (p : Char → Bool) (l : List Char) : List Char :=
  (l.reverse.dropWhile p).reverse

/-- Python `str.strip(chars)`: drop matching characters from both ends. -/
def stripBoth (p : Char → Bool) (l : List Char) : List Char :=
  dropTrail p (l.dropWhile p)

/-- Python `str.strip()` on a Lean string. -/
def pyStrip (s : String) : String :=
  String.mk (stripBoth isPySpace s.toList)

/-- Python `str.lower()` on a Lean string. -/
def pyLower (s : String) : String :=
  String.mk (s.toList.map lowerChar)

/-- Substring test on character lists: Python's `needle in hay`. -/
def containsL (hay needle : List Char) : Bool :=
  match hay with
  | [] => needle.isEmpty
  | _ :: t => needle.isPrefixOf hay || containsL t needle

/-- Python's `needle in hay` on strings (plain substring containment). -/
def strContains (hay needle : String) : Bool :=
  containsL hay.toList needle.toList

/-! ### `slugify` (source lines 31-35) -/

/-- Characters kept by the slug regex class `[a-z0-9]`. -/
def isSlugChar (c : Char) : Bool :=
  ('a' ≤ c && c ≤ 'z') || ('0' ≤ c && c ≤ '9')

/-- `re.sub(r"[^a-z0-9]+", "-", text)`: each maximal run of characters
outside `[a-z0-9]` becomes one hyphen.  The flag records whether the previous
character was part of such a run. -/
def subNonAlnum : Bool → List Char → List Char
  | _, [] => []
  | inRun, c :: cs =>
    if isSlugChar c then c :: subNonAlnum false cs
    else if inRun then subNonAlnum true cs
    else '-' :: subNonAlnum true cs

/-- `re.sub(r"-\x7b2,\x7d", "-", text)`: each maximal run of hyphens becomes a
single hyphen (a lone hyphen is left alone, which is the same thing). -/
def collapseHyphens : Bool → List Char → List Char
  | _, [] => []
  | prevH, c :: cs =>
    if c = '-' then
      if prevH then collapseHyphens true cs else '-' :: collapseHyphens true cs
    else c :: collapseHyphens false cs

/-- `slugify` from the source: strip, lowercase, collapse non-alphanumeric
runs to `-`, collapse hyphen runs, strip hyphens, and fall back to `"feed"`
for an empty result. -/
def slugify (text : String) : String :=
  let t := stripBoth isPySpace text.toList
  let t := t.map lowerChar
  let t := subNonAlnum false t
  let t := collapseHyphens false t
  let t := stripBoth (· = '-') t
  if t.isEmpty then "feed" else String.mk t

/-! ### `urllib.parse.urljoin` -/

/-- Split on every occurrence of `sep`, Python `str.split(sep)`:
`splitOnChar '/' "".toList = [[]]` and separators at the ends produce empty
groups. -/
def splitOnChar (sep : Char) : List Char → List (List Char)
  | [] => [[]]
  | c :: cs =>
    if c = sep then [] :: splitOnChar sep cs
    else
      match splitOnChar sep cs with
      | [] => [[c]]
      | g :: gs => (c :: g) :: gs

/-- Split at the first occurrence of `sep`: `some (before, after)`, or `none`
when `sep` does not occur. -/
def splitAtFirst (sep : Char) : List Char → Option (List Char × List Char)
  | [] => none
  | c :: cs =>
    if c = sep then some ([], cs)
    else (splitAtFirst sep cs).map (fun p => (c :: p.1, p.2))

/-- Characters allowed after the first one in a URL scheme. -/
def isSchemeChar (c : Char) : Bool :=
  c.isAlpha || c.isDigit || c = '+' || c = '-' || c = '.'

/-- The five components `urlsplit` produces (`;parameters` is not modelled). -/
structure UrlParts where
  scheme : List Char
  netloc : List Char
  path : List Char
  query : List Char
  fragment : List Char
deriving DecidableEq

/-- Scan the netloc: everything up to the first `/`, `?` or `#`. -/
def netlocEnd : List Char → List Char × List Char
  | [] => ([], [])
  | c :: cs =>
    if c = '/' || c = '?' || c = '#' then ([], c :: cs)
    else
      let (n, r) := netlocEnd cs
      (c :: n, r)

/-- CPython `urlsplit(url, scheme=defaultScheme)`: scheme (validated and
lowercased), `//netloc`, `#fragment`, `?query`, in that order. -/
def urlsplitL (defaultScheme url : List Char) : UrlParts :=
  let (scheme, rest) :=
    match splitAtFirst ':' url with
    | some (pre, post) =>
      match pre with
      | [] => (defaultScheme, url)
      | c :: cs =>
        if c.isAlpha && cs.all isSchemeChar then (pre.map lowerChar, post)
        else (defaultScheme, url)
    | none => (defaultScheme, url)
  let (netloc, rest) :=
    match rest with
    | '/' :: '/' :: r => netlocEnd r
    | _ => ([], rest)
  let (rest, fragment) :=
    match splitAtFirst '#' rest with
    | some (a, b) => (a, b)
    | none => (rest, [])
  let (path, query) :=
    match splitAtFirst '?' rest with
    | some (a, b) => (a, b)
    | none => (rest, [])
  ⟨scheme, netloc, path, query, fragment⟩

/-- CPython `urlunsplit`. -/
def urlunsplitL (u : UrlParts) : List Char :=
  let url := u.path
  let url :=
    if u.netloc ≠ [] ∨ url.take 2 = ['/', '/'] then
      '/' :: '/' :: u.netloc ++ (if url ≠ [] ∧ url.head? ≠ some '/' then '/' :: url else url)
    else url
  let url := if u.scheme ≠ [] then u.scheme ++ ':' :: url else url
  let url := if u.query ≠ [] then url ++ '?' :: u.query else url
  if u.fragment ≠ [] then url ++ '#' :: u.fragment else url

/-- `urllib.parse.uses_relative`. -/
def usesRelative : List String :=
  ["", "ftp", "http", "gopher", "nntp", "imap", "wais", "file", "https",
   "shttp", "mms", "prospero", "rtsp", "rtspu", "sftp", "svn", "svn+ssh",
   "ws", "wss"]

/-- `urllib.parse.uses_netloc`. -/
def usesNetloc : List String :=
  ["", "ftp", "http", "gopher", "nntp", "telnet", "imap", "wais", "file",
   "mms", "https", "shttp", "snews", "prospero", "rtsp", "rtspu", "rsync",
   "svn", "svn+ssh", "sftp", "nfs", "git", "git+ssh", "ws", "wss",
   "itms-services"]

/-- Dot-segment resolution: `..` pops (silently on an empty stack), `.` is
dropped, other segments are pushed.  `acc` is the stack, most recent first. -/
def resolveSegs (acc : List (List Char)) : List (List Char) → List (List Char)
  | [] => acc.reverse
  | seg :: rest =>
    if seg = ['.', '.'] then resolveSegs (acc.drop 1) rest
    else if seg = ['.'] then resolveSegs acc rest
    else resolveSegs (seg :: acc) rest

/-- `segments[1:-1] = filter(None, segments[1:-1])`: drop empty segments from
everywhere but the first and last position. -/
def filterMiddle : List (List Char) → List (List Char)
  | [] => []
  | [a] => [a]
  | a :: rest => a :: (rest.dropLast.filter (· ≠ [])) ++ [rest.getLastD []]

/-- CPython `urljoin(base, url)` on character lists. -/
def urljoinL (base url : List Char) : List Char :=
  if base = [] then url
  else if url = [] then base
  else
    let b := urlsplitL [] base
    let u := urlsplitL b.scheme url
    if u.scheme ≠ b.scheme ∨ ¬ (usesRelative.map String.toList).contains u.scheme then url
    else if (usesNetloc.map String.toList).contains u.scheme ∧ u.netloc ≠ [] then
      urlunsplitL u
    else
      let netloc := if (usesNetloc.map String.toList).contains u.scheme then b.netloc else u.netloc
      if u.path = [] then
        urlunsplitL ⟨u.scheme, netloc, b.path, if u.query = [] then b.query else u.query, u.fragment⟩
      else
        let baseParts := splitOnChar '/' b.path
        let baseParts := if baseParts.getLast? = some [] then baseParts else baseParts.dropLast
        let segments :=
          if u.path.head? = some '/' then splitOnChar '/' u.path
          else filterMiddle (baseParts ++ splitOnChar '/' u.path)
        let resolved := resolveSegs [] segments
        let resolved :=
          if segments.getLast? = some ['.'] ∨ segments.getLast? = some ['.', '.'] then
            resolved ++ [[]]
          else resolved
        let path := List.intercalate ['/'] resolved
        let path := if path = [] then ['/'] else path
        urlunsplitL ⟨u.scheme, netloc, path, u.query, u.fragment⟩

/-- `urllib.parse.urljoin` on strings, as the extractor calls it. -/
def urljoin (base url : String) : String :=
  String.mk (urljoinL base.toList url.toList)

/-! ### The parsed-HTML tree (BeautifulSoup) -/

/-- A parsed HTML tree: element tags with attributes and children, and text
nodes (`NavigableString`s).  The soup passed to the extractor is the root
node, standing for BeautifulSoup's `[document]` container. -/
inductive Node where
  | text (s : String)
  | elem (tag : String) (attrs : List (String × String)) (children : List Node)

/-- The tag name of a node; a text node has none. -/
def Node.tag : Node → String
  | .text _ => ""
  | .elem t _ _ => t

/-- `tag.get(key)`: attribute lookup, `none` when absent. -/
def Node.attr : Node → String → Option String
  | .text _, _ => none
  | .elem _ attrs _, key => (attrs.find? (fun p => p.1 = key)).map (·.2)

mutual
/-- All text-node strings below (and at) a node, in document order. -/
def textPieces : Node → List String
  | .text s => [s]
  | .elem _ _ cs => textPiecesL cs
def textPiecesL : List Node → List String
  | [] => []
  | c :: cs => textPieces c ++ textPiecesL cs
end

/-- Join with single spaces (Python `" ".join`). -/
def joinSpace : List String → String
  | [] => ""
  | [s] => s
  | s :: rest => s ++ " " ++ joinSpace rest

/-- `tag.get_text(" ", strip=True)`: every descendant string stripped, empty
pieces dropped, the rest joined by one space. -/
def getTextSp (n : Node) : String :=
  joinSpace (((textPieces n).map pyStrip).filter (· ≠ ""))

/-- Python `str.split()` (split on whitespace runs), used for the `class`
attribute. `cur` accumulates the current token reversed. -/
def splitWsAux (cur : List Char) : List Char → List (List Char)
  | [] => if cur = [] then [] else [cur.reverse]
  | c :: cs =>
    if isPySpace c then
      if cur = [] then splitWsAux [] cs else cur.reverse :: splitWsAux [] cs
    else splitWsAux (c :: cur) cs

/-- CSS class test: the `class` attribute, whitespace-split, contains `cls`. -/
def hasClass (n : Node) (cls : String) : Bool :=
  match n.attr "class" with
  | none => false
  | some v => (splitWsAux [] v.toList).contains cls.toList

mutual
/-- A node and its element descendants in pre-order (document order). -/
def subNodes : Node → List Node
  | .text s => [.text s]
  | .elem t a cs => .elem t a cs :: subNodesL cs
def subNodesL : List Node → List Node
  | [] => []
  | c :: cs => subNodes c ++ subNodesL cs
end

/-- The strict descendants of a node in document order. -/
def descendantsOf : Node → List Node
  | .text _ => []
  | .elem _ _ cs => subNodesL cs

/-- `tag.find(...)` with a node predicate: first matching descendant. -/
def findDesc (n : Node) (p : Node → Bool) : Option Node :=
  (descendantsOf n).find? p

/-- One entry of the flattened document: the indices of the ancestors
(innermost first) and the element itself. -/
abbrev FlatNode := List Nat × Node

mutual
/-- Flatten a tree into its elements in document (pre-)order, numbering the
elements by position and recording each element's ancestor indices.  Text
nodes get no entry. `i` is the next free index. -/
def flatNode (anc : List Nat) (i : Nat) : Node → Nat × List FlatNode
  | .text _ => (i, [])
  | .elem t a cs =>
    let r := flatList (i :: anc) (i + 1) cs
    (r.1, (anc, .elem t a cs) :: r.2)
def flatList (anc : List Nat) (i : Nat) : List Node → Nat × List FlatNode
  | [] => (i, [])
  | c :: cs =>
    let r1 := flatNode anc i c
    let r2 := flatList anc r1.1 cs
    (r2.1, r1.2 ++ r2.2)
end

/-- The whole soup flattened; the root (the soup itself) is entry 0. -/
def flatten (soup : Node) : List FlatNode :=
  (flatNode [] 0 soup).2

/-- The element stored at index `j` of the flattened document. -/
def nodeAt (nodes : List FlatNode) (j : Nat) : Option Node :=
  (nodes.get? j).map (·.2)

/-- Does any ancestor (by index) carry tag `t`? -/
def chainHasTag (nodes : List FlatNode) (anc : List Nat) (t : String) : Bool :=
  anc.any (fun j => (nodeAt nodes j).any (fun m => m.tag == t))

/-- Ancestor part of the selector `.view-content h2 a`: some ancestor is an
`h2` that itself has an ancestor with class `view-content`. -/
def h2UnderViewContent (nodes : List FlatNode) : List Nat → Bool
  | [] => false
  | j :: rest =>
    ((nodeAt nodes j).any (fun m => m.tag == "h2")
      && rest.any (fun k => (nodeAt nodes k).any (fun m => hasClass m "view-content")))
    || h2UnderViewContent nodes rest

/-- `tag.find_parent(t)`: index of the nearest ancestor with tag `t`. -/
def findParentIdx (nodes : List FlatNode) (anc : List Nat) (t : String) : Option Nat :=
  anc.find? (fun j => (nodeAt nodes j).any (fun m => m.tag == t))

/-- `tag.find_next("p")`: the first element tagged `p` strictly after index
`j` in document order (descendants of `j` included, as in BeautifulSoup). -/
def findNextP (nodes : List FlatNode) (j : Nat) : Option Node :=
  ((nodes.drop (j + 1)).find? (fun e => e.2.tag = "p")).map (·.2)

/-! ### The item extractor (source lines 106-162) -/

/-- One extracted candidate item: the dict
`\x7b"title": ..., "link": ..., "desc": ...\x7d` of the source. -/
structure Item where
  title : String
  link : String
  desc : Option String
deriving DecidableEq

/-- Doppiozero tier, body of the loop over `soup.select(".view-content h2 a")`
(source 116-125): skip on missing/empty href or empty text, resolve the link,
and take the first `p` after the nearest `h2` ancestor as description. -/
def dzItemAt (nodes : List FlatNode) (base : String) (anc : List Nat) (n : Node) : Option Item :=
  if n.tag = "a" && h2UnderViewContent nodes anc then
    match n.attr "href" with
    | none => none
    | some href =>
      let title := getTextSp n
      if href = "" ∨ title = "" then none
      else
        let link := urljoin base href
        let descTag :=
          match findParentIdx nodes anc "h2" with
          | some j => findNextP nodes j
          | none => none
        some ⟨title, link, descTag.map getTextSp⟩
  else none

/-- All items of the Doppiozero tier, in document order. -/
def dzTier (nodes : List FlatNode) (base : String) : List Item :=
  nodes.filterMap (fun e => dzItemAt nodes base e.1 e.2)

/-- Generic tier, body of the loop over `soup.select("article")` (source
129-139): first descendant link with an href, text falling back to the
`title` attribute, first descendant `p` as description. -/
def articleItemOf (base : String) (n : Node) : Option Item :=
  if n.tag = "article" then
    match findDesc n (fun m => m.tag = "a" && (m.attr "href").isSome) with
    | none => none
    | some a =>
      let title : Option String :=
        let t := getTextSp a
        if t = "" then a.attr "title" else some t
      let link := urljoin base ((a.attr "href").getD "")
      match title with
      | none => none
      | some t =>
        if t = "" ∨ link = "" then none
        else some ⟨t, link, (findDesc n (fun m => m.tag = "p")).map getTextSp⟩
  else none

/-- All items of the `<article>` tier, in document order. -/
def articleTier (nodes : List FlatNode) (base : String) : List Item :=
  nodes.filterMap (fun e => articleItemOf base e.2)

/-- Membership in `soup.select("h1 a, h2 a, h3 a, h2, h3")`: a link under an
h1/h2/h3, or a bare h2/h3. -/
def headSelMatch (nodes : List FlatNode) (anc : List Nat) (n : Node) : Bool :=
  (n.tag = "a"
      && (chainHasTag nodes anc "h1" || chainHasTag nodes anc "h2" || chainHasTag nodes anc "h3"))
    || n.tag = "h2" || n.tag = "h3"

/-- Heading-fallback tier, body of the loop (source 143-153).  `k` is the
index of `h` in the flattened document, `anc` its ancestor indices. -/
def headItemAt (nodes : List FlatNode) (base : String) (k : Nat) (anc : List Nat) (h : Node) :
    Option Item :=
  if headSelMatch nodes anc h then
    let a? : Option Node :=
      if h.tag = "a" then some h
      else findDesc h (fun m => m.tag = "a" && (m.attr "href").isSome)
    match a? with
    | none => none
    | some a =>
      match a.attr "href" with
      | none => none
      | some href =>
        if href = "" then none
        else
          let title : Option String :=
            let t := getTextSp a
            if t = "" then a.attr "title" else some t
          let link := urljoin base href
          match title with
          | none => none
          | some t =>
            if t = "" ∨ link = "" then none
            else
              let fromIdx := if h.tag = "a" then anc.headD 0 else k
              some ⟨t, link, (findNextP nodes fromIdx).map getTextSp⟩
  else none

/-- All items of the heading-fallback tier, in document order. -/
def headingTier (nodes : List FlatNode) (base : String) : List Item :=
  nodes.enum.filterMap (fun e => headItemAt nodes base e.1 e.2.1 e.2.2)

/-- The final dedup pass (source 156-161): `seen` is the set of links already
emitted; the first occurrence of each link is kept in order. -/
def dedupAux (seen : List String) : List Item → List Item
  | [] => []
  | it :: rest =>
    if seen.contains it.link then dedupAux seen rest
    else it :: dedupAux (it.link :: seen) rest

/-- Deduplicate a candidate list by exact resolved-link string. -/
def dedupLinks (items : List Item) : List Item :=
  dedupAux [] items

/-- The Doppiozero tier as actually attempted: only when `"doppiozero.com"`
occurs as a substring of `base_url` (source line 115). -/
def dzEffective (nodes : List FlatNode) (base : String) : List Item :=
  if strContains base "doppiozero.com" then dzTier nodes base else []

/-- The three-tier cascade before deduplication: each later tier runs only if
the accumulated `items` list is still empty (source 112-153). -/
def cascadeItems (soup : Node) (base : String) : List Item :=
  let nodes := flatten soup
  let items := dzEffective nodes base
  let items := if items.isEmpty then articleTier nodes base else items
  let items := if items.isEmpty then headingTier nodes base else items
  items

/-- `extract_items_generic(soup, base_url)` (source 106-162): the cascade
followed by the dedup pass. -/
def extract_items_generic (soup : Node) (base_url : String) : List Item :=
  dedupLinks (cascadeItems soup base_url)

/-! ### `build_rss` (source lines 165-186) -/

/-- An `rfeed.Item` as `build_rss` constructs it; `pubDate` holds the injected
clock value (the XML serialisation of the external rfeed library is not
modelled). -/
structure RfeedItem where
  title : String
  link : String
  description : String
  guid : String
  pubDate : Nat
deriving DecidableEq

/-- An `rfeed.Feed` as `build_rss` constructs it. -/
structure RfeedFeed where
  title : String
  link : String
  description : String
  language : String
  lastBuildDate : Nat
  items : List RfeedItem
deriving DecidableEq

/-- `build_rss(name, base_url, items)`.  The source reads
`datetime.now(timezone.utc)` exactly once into `now` (line 166); here that
single clock reading is the explicit argument `now`. -/
def build_rss (now : Nat) (name : String) (base_url : String) (items : List Item) : RfeedFeed :=
  { title := name ++ " (custom)"
    link := base_url
    description := "Feed generato automaticamente per " ++ name
    language := "it"
    lastBuildDate := now
    items := items.map (fun it =>
      { title := it.title
        link := it.link
        description := it.desc.getD ""
        guid := it.link
        pubDate := now }) }

/-! ### `write_opml_from_dir` (source lines 188-212) -/

/-- `html.escape(s)` with its default `quote=True`. -/
def escChar (c : Char) : List Char :=
  if c = '&' then "&amp;".toList
  else if c = '<' then "&lt;".toList
  else if c = '>' then "&gt;".toList
  else if c = '"' then "&quot;".toList
  else if c = '\'' then "&#x27;".toList
  else [c]

/-- `html.escape` on a string. -/
def htmlEscape (s : String) : String :=
  String.mk ((s.toList.map escChar).flatten)

/-- `os.path.splitext(f)[0]`: cut at the last dot, unless every character
before it is a dot (so a leading-dot name keeps its dots). -/
def splitextRoot (f : String) : String :=
  let cs := f.toList
  match (cs.enum.filter (fun p => p.2 = '.')).getLast? with
  | none => f
  | some p => if (cs.take p.1).any (fun c => c ≠ '.') then String.mk (cs.take p.1) else f

/-- `base_url.rstrip("/")`. -/
def rstripSlash (s : String) : String :=
  String.mk (dropTrail (· = '/') s.toList)

/-- `f.lower().endswith(".xml")`. -/
def isXmlName (f : String) : Bool :=
  ".xml".toList.isSuffixOf (pyLower f).toList

/-- Lexicographic comparison by code point, Python's string `<=`. -/
def lexLe : List Char → List Char → Bool
  | [], _ => true
  | _ :: _, [] => false
  | a :: as, b :: bs => if a = b then lexLe as bs else a < b

/-- Insert into a `lexLe`-sorted list. -/
def insertSorted (x : String) : List String → List String
  | [] => [x]
  | y :: ys => if lexLe x.toList y.toList then x :: y :: ys else y :: insertSorted x ys

/-- Python `sorted` on strings (lexicographic, by code point). -/
def sortStrs : List String → List String
  | [] => []
  | x :: xs => insertSorted x (sortStrs xs)

/-- `os.path.join` for two POSIX components as the source uses it. -/
def pathJoin (dir f : String) : String :=
  if f.toList.head? = some '/' then f
  else if dir = "" ∨ dir.toList.getLast? = some '/' then dir ++ f
  else dir ++ "/" ++ f

/-- `sorted(os.listdir(dir_path))` filtered to feed files (source 189). -/
def xmlFilesOf (listing : List String) : List String :=
  (sortStrs listing).filter isXmlName

/-- One `<outline .../>` line (source 193-201).  `absOf` stands for
`os.path.abspath`. -/
def opmlEntry (absOf : String → String) (dirPath : String) (base_url : Option String)
    (f : String) : String :=
  let text := htmlEscape (splitextRoot f)
  let xmlUrl :=
    match base_url with
    | some b =>
      if b ≠ "" then rstripSlash b ++ "/" ++ f
      else "file://" ++ absOf (pathJoin dirPath f)
    | none => "file://" ++ absOf (pathJoin dirPath f)
  "    <outline text=\"" ++ text ++ "\" type=\"rss\" xmlUrl=\"" ++ htmlEscape xmlUrl ++ "\"/>"

/-- Join with newlines (Python `"\n".join`). -/
def joinNl : List String → String
  | [] => ""
  | [s] => s
  | s :: rest => s ++ "\n" ++ joinNl rest

/-- `write_opml_from_dir(dir_path, out_path, base_url)` (source 188-212).
`listing` stands for `os.listdir(dir_path)` and `absOf` for
`os.path.abspath`; `none` models returning `False` with no file written,
`some doc` models writing `doc` to `out_path` and returning `True`. -/
def write_opml_from_dir (absOf : String → String) (listing : List String)
    (dirPath : String) (base_url : Option String) : Option String :=
  let files := xmlFilesOf listing
  if files.isEmpty then none
  else
    let lines := files.map (opmlEntry absOf dirPath base_url)
    some ("<?xml version=\"1.0\" encoding=\"UTF-8\"?>\n<opml version=\"2.0\">\n  <head><title>Feeds export</title></head>\n  <body>\n"
      ++ joinNl lines ++ "\n  </body>\n</opml>\n")

/-! ### `read_excel_rows` (source lines 214-234) -/

/-- A worksheet cell: `none` for an empty cell, `some s` for a string value
(the source `str()`-converts other values; those conversions are outside the
model). -/
abbrev Cell := Option String

/-- Header normalisation:
`c.value.strip().lower() if isinstance(c.value, str) else c.value`. -/
def headerKey (c : Cell) : Cell :=
  c.map (fun s => pyLower (pyStrip s))

/-- `str(row[idx]).strip() if row[idx] else ""`: an absent or empty cell gives
`""`, any other string is trimmed. -/
def cellStr (c : Cell) : String :=
  pyStrip (c.getD "")

/-- The data rows kept by the loop (source 225-231): empty tuples are skipped
and a row must have both a non-blank name and a non-blank url. -/
def validRowsAt (ni ui : Nat) (dataRows : List (List Cell)) : List (String × String) :=
  dataRows.filterMap (fun row =>
    if row.isEmpty then none
    else
      let name := cellStr (row.getD ni none)
      let url := cellStr (row.getD ui none)
      if name ≠ "" ∧ url ≠ "" then some (name, url) else none)

/-- `read_excel_rows(xlsx_path)` (source 214-234) on the first worksheet's
cells: `header` is the first row, `dataRows` the rest.  `Except.error`
models `raise SystemExit(message)`. -/
def read_excel_rows (header : List Cell) (dataRows : List (List Cell)) :
    Except String (List (String × String)) :=
  let hs := header.map headerKey
  match hs.findIdx? (· = some "name"), hs.findIdx? (· = some "url") with
  | some ni, some ui =>
    let rows := validRowsAt ni ui dataRows
    if rows.isEmpty then Except.error "Nessuna riga valida trovata (servono name e url)."
    else Except.ok rows
  | _, _ => Except.error "L'Excel deve avere intestazioni: 'name' e 'url' sulla prima riga."

/-! ### Specification-side definitions (from the spec's words, for refinement
comparisons) -/

/-- From the spec: deduplication keeps the first occurrence of each resolved
link and drops later duplicates, preserving first-seen order. -/
def keepFirstByLink : List Item → List Item
  | [] => []
  | x :: xs => x :: keepFirstByLink (xs.filter (fun y => !(y.link == x.link)))
termination_by l => l.length
decreasing_by
  simp only [List.length_cons]
  exact Nat.lt_succ_of_le (List.length_filter_le _ _)

/-- From the spec: slug = lowercase, non-alphanumeric runs collapsed to a
single hyphen, leading/trailing hyphens stripped, empty result falls back to
the literal `feed`. -/
def slugifySpec (text : String) : String :=
  let t := subNonAlnum false (text.toList.map lowerChar)
  let t := stripBoth (· = '-') t
  if t.isEmpty then "feed" else String.mk t

/-- All href attribute values present anywhere in the document, in document
order. -/
def docHrefs (soup : Node) : List String :=
  (subNodes soup).filterMap (fun n => n.attr "href")

/-! ### The exception path of `urljoin`, and the extractor with it

CPython's `urlsplit` raises `ValueError("Invalid IPv6 URL")` right after
extracting the netloc when the netloc contains `[` without `]` or `]`
without `[`.  `urljoin` parses the base and then the url before doing
anything else, so either side can raise, and `extract_items_generic` does not
catch the exception.  The definitions below model this observable behaviour:
`Except.error` is the propagated `ValueError`, `Except.ok` the normal return.
Not modelled: `_checknetloc`'s NFKC-normalisation check (it needs the Unicode
normalisation tables and is unreachable for ASCII netlocs) and the
bracketed-host address validation newer CPython adds for netlocs that do have
both brackets. -/

deriving instance DecidableEq for Except

/-- `urlsplit` with its mismatched-bracket `ValueError`.  CPython performs
the check on the netloc right after splitting it off and before the
fragment/query splits; since those later splits never change the netloc,
checking the final parts is equivalent. -/
def urlsplitE (defaultScheme url : List Char) : Except String UrlParts :=
  let p := urlsplitL defaultScheme url
  if (p.netloc.contains '[' && !p.netloc.contains ']')
      || (p.netloc.contains ']' && !p.netloc.contains '[') then
    Except.error "Invalid IPv6 URL"
  else Except.ok p

/-- `urljoin` with its exception path: empty base or url return early without
parsing; otherwise the base and then the url are parsed (either parse can
raise) and the join itself is the pure computation `urljoin`. -/
def urljoinE (base url : String) : Except String String :=
  if base = "" then Except.ok url
  else if url = "" then Except.ok base
  else
    match urlsplitE [] base.toList with
    | Except.error e => Except.error e
    | Except.ok b =>
      match urlsplitE b.scheme url.toList with
      | Except.error e => Except.error e
      | Except.ok _ => Except.ok (urljoin base url)

/-- Doppiozero tier loop body with the exception path: the skip conditions
precede the `urljoin` call, exactly as in source lines 117-121. -/
def dzItemAtE (nodes : List FlatNode) (base : String) (anc : List Nat) (n : Node) :
    Except String (Option Item) :=
  if n.tag = "a" && h2UnderViewContent nodes anc then
    match n.attr "href" with
    | none => Except.ok none
    | some href =>
      let title := getTextSp n
      if href = "" ∨ title = "" then Except.ok none
      else
        match urljoinE base href with
        | Except.error e => Except.error e
        | Except.ok link =>
          let descTag :=
            match findParentIdx nodes anc "h2" with
            | some j => findNextP nodes j
            | none => none
          Except.ok (some ⟨title, link, descTag.map getTextSp⟩)
  else Except.ok none

/-- Article tier loop body with the exception path.  In the source (lines
130-135) `urljoin` runs before the `not title` test, so a bad href raises
even when the item would afterwards be skipped for lack of a title. -/
def articleItemOfE (base : String) (n : Node) : Except String (Option Item) :=
  if n.tag = "article" then
    match findDesc n (fun m => m.tag = "a" && (m.attr "href").isSome) with
    | none => Except.ok none
    | some a =>
      let title : Option String :=
        let t := getTextSp a
        if t = "" then a.attr "title" else some t
      match urljoinE base ((a.attr "href").getD "") with
      | Except.error e => Except.error e
      | Except.ok link =>
        match title with
        | none => Except.ok none
        | some t =>
          if t = "" ∨ link = "" then Except.ok none
          else Except.ok (some ⟨t, link, (findDesc n (fun m => m.tag = "p")).map getTextSp⟩)
  else Except.ok none

/-- Heading tier loop body with the exception path (source lines 144-153):
a missing or empty href skips before `urljoin` can raise. -/
def headItemAtE (nodes : List FlatNode) (base : String) (k : Nat) (anc : List Nat)
    (hn : Node) : Except String (Option Item) :=
  if headSelMatch nodes anc hn then
    let a? : Option Node :=
      if hn.tag = "a" then some hn
      else findDesc hn (fun m => m.tag = "a" && (m.attr "href").isSome)
    match a? with
    | none => Except.ok none
    | some a =>
      match a.attr "href" with
      | none => Except.ok none
      | some href =>
        if href = "" then Except.ok none
        else
          let title : Option String :=
            let t := getTextSp a
            if t = "" then a.attr "title" else some t
          match urljoinE base href with
          | Except.error e => Except.error e
          | Except.ok link =>
            match title with
            | none => Except.ok none
            | some t =>
              if t = "" ∨ link = "" then Except.ok none
              else
                let fromIdx := if hn.tag = "a" then anc.headD 0 else k
                Except.ok (some ⟨t, link, (findNextP nodes fromIdx).map getTextSp⟩)
  else Except.ok none

/-- One tier loop with the exception path: an error aborts the whole loop
(the exception propagates and the items gathered so far are lost). -/
def dzTierEGo (nodes : List FlatNode) (base : String) :
    List FlatNode → Except String (List Item)
  | [] => Except.ok []
  | e :: rest =>
    match dzItemAtE nodes base e.1 e.2 with
    | Except.error msg => Except.error msg
    | Except.ok none => dzTierEGo nodes base rest
    | Except.ok (some it) =>
      match dzTierEGo nodes base rest with
      | Except.error msg => Except.error msg
      | Except.ok l => Except.ok (it :: l)

/-- The Doppiozero tier with the exception path. -/
def dzTierE (nodes : List FlatNode) (base : String) : Except String (List Item) :=
  dzTierEGo nodes base nodes

/-- The `<article>` tier loop with the exception path. -/
def articleTierEGo (base : String) : List FlatNode → Except String (List Item)
  | [] => Except.ok []
  | e :: rest =>
    match articleItemOfE base e.2 with
    | Except.error msg => Except.error msg
    | Except.ok none => articleTierEGo base rest
    | Except.ok (some it) =>
      match articleTierEGo base rest with
      | Except.error msg => Except.error msg
      | Except.ok l => Except.ok (it :: l)

/-- The `<article>` tier with the exception path. -/
def articleTierE (nodes : List FlatNode) (base : String) : Except String (List Item) :=
  articleTierEGo base nodes

/-- The heading-fallback tier loop with the exception path. -/
def headingTierEGo (nodes : List FlatNode) (base : String) :
    List (Nat × FlatNode) → Except String (List Item)
  | [] => Except.ok []
  | e :: rest =>
    match headItemAtE nodes base e.1 e.2.1 e.2.2 with
    | Except.error msg => Except.error msg
    | Except.ok none => headingTierEGo nodes base rest
    | Except.ok (some it) =>
      match headingTierEGo nodes base rest with
      | Except.error msg => Except.error msg
      | Except.ok l => Except.ok (it :: l)

/-- The heading-fallback tier with the exception path. -/
def headingTierE (nodes : List FlatNode) (base : String) : Except String (List Item) :=
  headingTierEGo nodes base nodes.enum

/-- `extract_items_generic` with the exception path: the same cascade and
final dedup, but a `ValueError` raised by any `urljoin` call aborts the whole
extraction (the extractor catches nothing). -/
def extract_items_genericE (soup : Node) (base_url : String) : Except String (List Item) :=
  let nodes := flatten soup
  match (if strContains base_url "doppiozero.com" then dzTierE nodes base_url
         else Except.ok []) with
  | Except.error e => Except.error e
  | Except.ok items1 =>
    match (if items1.isEmpty then articleTierE nodes base_url else Except.ok items1) with
    | Except.error e => Except.error e
    | Except.ok items2 =>
      match (if items2.isEmpty then headingTierE nodes base_url else Except.ok items2) with
      | Except.error e => Except.error e
      | Except.ok items3 => Except.ok (dedupLinks items3)

/-! ### Concrete test documents -/

/-- A Doppiozero-style listing that also contains a generic `<article>`: both
the site-specific tier and the generic tier would match it. -/
def dzDoc : Node :=
  .elem "[document]" [] [
    .elem "div" [("class", "view-content")] [
      .elem "h2" [] [.elem "a" [("href", "/a1")] [.text "Titolo Uno"]],
      .elem "p" [] [.text "Descrizione uno"],
      .elem "h2" [] [.elem "a" [("href", "/a2")] [.text " Titolo  Due "]]],
    .elem "article" [] [
      .elem "a" [("href", "/b1")] [.text "Generico"],
      .elem "p" [] [.text "Desc generica"]]]

/-- A document whose only structure is headings with links. -/
def headDoc : Node :=
  .elem "[document]" [] [
    .elem "h2" [] [.elem "a" [("href", "/x")] [.text "Uno"]],
    .elem "p" [] [.text "dopo"],
    .elem "h3" [] [.elem "a" [("href", "/x")] [.text "Uno bis"]]]

/-- The empty document. -/
def emptyDoc : Node := .elem "[document]" [] []

/-- A document whose one article link has a netloc with an unclosed bracket:
resolving its href raises `ValueError("Invalid IPv6 URL")` in CPython. -/
def badHrefDoc : Node :=
  .elem "[document]" [] [
    .elem "article" [] [.elem "a" [("href", "//[x")] [.text "t"]]]

/-! ## Theorems -/

/-! ### Concrete evaluations of the model -/

example : urljoin "https://example.com" "/foo/bar" = "https://example.com/foo/bar" := by decide
example : urljoin "https://www.doppiozero.com/lista" "articolo/x"
    = "https://www.doppiozero.com/articolo/x" := by decide
example : urljoin "https://a/b/c" "../d" = "https://a/d" := by decide
example : urljoin "https://a/b" "http://other/x" = "http://other/x" := by decide
example : urljoin "https://a/b" "" = "https://a/b" := by decide
example : urljoin "https://a/b" "//cdn.example/y" = "https://cdn.example/y" := by decide
example : slugify "Il Sole 24 Ore!" = "il-sole-24-ore" := by decide
example : slugify "" = "feed" := by decide
example : slugify "  --Già..fatto--  " = "gi-fatto" := by decide

example :
    extract_items_generic dzDoc "https://www.doppiozero.com/sezione"
      = [⟨"Titolo Uno", "https://www.doppiozero.com/a1", some "Descrizione uno"⟩,
         ⟨"Titolo  Due", "https://www.doppiozero.com/a2", some "Desc generica"⟩] := by decide

example :
    extract_items_generic dzDoc "https://example.org/sezione"
      = [⟨"Generico", "https://example.org/b1", some "Desc generica"⟩] := by decide

example :
    extract_items_generic headDoc "https://h.example"
      = [⟨"Uno", "https://h.example/x", some "dopo"⟩] := by decide

example : extract_items_generic emptyDoc "https://example.com" = [] := by decide


/-! ### The dedup pass as a first-occurrence filter -/

theorem keepFirstByLink_nil : keepFirstByLink [] = [] := by
  rw [keepFirstByLink.eq_def]

theorem keepFirstByLink_cons (x : Item) (xs : List Item) :
    keepFirstByLink (x :: xs)
      = x :: keepFirstByLink (xs.filter (fun y => !(y.link == x.link))) := by
  rw [keepFirstByLink.eq_def]

theorem dedupAux_eq_keepFirst (l : List Item) :
    ∀ seen, dedupAux seen l = keepFirstByLink (l.filter (fun y => !seen.contains y.link)) := by
  induction l with
  | nil => intro seen; simp [dedupAux, keepFirstByLink_nil]
  | cons x xs ih =>
    intro seen
    by_cases h : seen.contains x.link = true
    · rw [dedupAux, if_pos h, List.filter_cons, h]
      simp only [Bool.not_true, Bool.false_eq_true, if_false]
      exact ih seen
    · have hb : seen.contains x.link = false := by simpa using h
      rw [dedupAux, if_neg h, List.filter_cons, hb]
      simp only [Bool.not_false, if_true]
      rw [keepFirstByLink_cons, ih]
      congr 1
      rw [List.filter_filter]
      congr 1
      apply List.filter_congr
      intro y _
      by_cases hyx : y.link = x.link <;>
        simp [List.contains_cons, Bool.not_or, Bool.and_comm, hyx]

theorem dedupLinks_eq_keepFirst (l : List Item) : dedupLinks l = keepFirstByLink l := by
  rw [dedupLinks, dedupAux_eq_keepFirst]
  simp

theorem keepFirstByLink_sublist (l : List Item) : List.Sublist (keepFirstByLink l) l := by
  induction l using keepFirstByLink.induct with
  | case1 => simp [keepFirstByLink_nil]
  | case2 x xs ih =>
    rw [keepFirstByLink_cons]
    exact List.Sublist.cons₂ x (ih.trans (List.filter_sublist xs))

theorem keepFirstByLink_pairwise (l : List Item) :
    (keepFirstByLink l).Pairwise (fun a b => a.link ≠ b.link) := by
  induction l using keepFirstByLink.induct with
  | case1 => simp [keepFirstByLink_nil]
  | case2 x xs ih =>
    rw [keepFirstByLink_cons]
    refine List.Pairwise.cons (fun y hy => ?_) ih
    have hmem : y ∈ xs.filter (fun y => !(y.link == x.link)) :=
      (keepFirstByLink_sublist _).subset hy
    have hne := List.of_mem_filter hmem
    simp only [Bool.not_eq_eq_eq_not, Bool.not_true, beq_eq_false_iff_ne] at hne
    exact fun hEq => hne hEq.symm

theorem keepFirstByLink_eq_nil_iff (l : List Item) : keepFirstByLink l = [] ↔ l = [] := by
  cases l with
  | nil => simp [keepFirstByLink_nil]
  | cons x xs => rw [keepFirstByLink_cons]; simp

/-- The pure extraction result is empty exactly when no tier matched
anything. -/
theorem extract_eq_nil_iff (soup : Node) (base_url : String) :
    extract_items_generic soup base_url = [] ↔
      dzEffective (flatten soup) base_url = [] ∧
      articleTier (flatten soup) base_url = [] ∧
      headingTier (flatten soup) base_url = [] := by
  rw [extract_items_generic, dedupLinks_eq_keepFirst, keepFirstByLink_eq_nil_iff]
  rcases hdz : dzEffective (flatten soup) base_url with _ | ⟨it, rest⟩
  · rcases hart : articleTier (flatten soup) base_url with _ | ⟨it2, rest2⟩
    · simp [cascadeItems, hdz, hart]
    · simp [cascadeItems, hdz, hart]
  · simp [cascadeItems, hdz]

/-- C2: the tiers run in cascade order: the `<article>` tier only when the
site-specific tier (as gated by the URL substring test) produced nothing, the
heading fallback only when both earlier tiers produced nothing; whenever the
site-specific tier yields at least one item, the output is exactly its items
(deduplicated), untouched by the other tiers. -/
theorem cascade_tier_order (soup : Node) (base_url : String) :
    (dzEffective (flatten soup) base_url ≠ [] →
        extract_items_generic soup base_url
          = dedupLinks (dzEffective (flatten soup) base_url)) ∧
    (dzEffective (flatten soup) base_url = [] →
      articleTier (flatten soup) base_url ≠ [] →
        extract_items_generic soup base_url
          = dedupLinks (articleTier (flatten soup) base_url)) ∧
    (dzEffective (flatten soup) base_url = [] →
      articleTier (flatten soup) base_url = [] →
        extract_items_generic soup base_url
          = dedupLinks (headingTier (flatten soup) base_url)) := by
  refine ⟨fun h1 => ?_, fun h1 h2 => ?_, fun h1 h2 => ?_⟩
  · have e1 : (dzEffective (flatten soup) base_url).isEmpty = false := by
      simp [List.isEmpty_iff, h1]
    simp [extract_items_generic, cascadeItems, e1]
  · have e2 : (articleTier (flatten soup) base_url).isEmpty = false := by
      simp [List.isEmpty_iff, h2]
    simp [extract_items_generic, cascadeItems, h1, e2]
  · simp [extract_items_generic, cascadeItems, h1, h2]

/-- Witness for C2: on a document matching both the Doppiozero rule and the
generic `<article>` pattern, with a matching URL, the output is exactly the
deduplicated site-specific items. -/
theorem cascade_tier_order_witness :
    dzEffective (flatten dzDoc) "https://www.doppiozero.com/sezione" ≠ [] ∧
    extract_items_generic dzDoc "https://www.doppiozero.com/sezione"
      = dedupLinks (dzEffective (flatten dzDoc) "https://www.doppiozero.com/sezione") :=
  ⟨by decide, (cascade_tier_order dzDoc "https://www.doppiozero.com/sezione").1 (by decide)⟩

/-- C3: the final output never contains two items with the same resolved link
string: it is exactly the first-occurrence filter of the tier output (first
occurrence wins), its links are pairwise distinct, and it is a sublist of the
tier output (first-seen order preserved); this holds for whatever tier
produced the items. -/
theorem extract_dedup_by_link (soup : Node) (base_url : String) :
    extract_items_generic soup base_url = keepFirstByLink (cascadeItems soup base_url) ∧
    (extract_items_generic soup base_url).Pairwise (fun a b => a.link ≠ b.link) ∧
    List.Sublist (extract_items_generic soup base_url) (cascadeItems soup base_url) := by
  refine ⟨dedupLinks_eq_keepFirst _, ?_, ?_⟩
  · rw [extract_items_generic, dedupLinks_eq_keepFirst]
    exact keepFirstByLink_pairwise _
  · rw [extract_items_generic, dedupLinks_eq_keepFirst]
    exact keepFirstByLink_sublist _

/-! ### Feed timestamps -/

/-- C4: `build_rss` reads the clock once; that single value is the feed's
`lastBuildDate` and the `pubDate` of every item, so all items of one
generated feed carry one identical timestamp equal to generation time. -/
theorem build_rss_single_timestamp (now : Nat) (name base_url : String) (items : List Item) :
    (build_rss now name base_url items).lastBuildDate = now ∧
    ∀ ri ∈ (build_rss now name base_url items).items, ri.pubDate = now := by
  refine ⟨rfl, fun ri hri => ?_⟩
  simp only [build_rss, List.mem_map] at hri
  obtain ⟨it, _, rfl⟩ := hri
  rfl

/-- Witness for C4 at a concrete clock value, feed and item. -/
theorem build_rss_single_timestamp_witness :
    (build_rss 7 "N" "https://u" [⟨"t", "l", none⟩]).lastBuildDate = 7 ∧
    (⟨"t", "l", "", "l", 7⟩ : RfeedItem).pubDate = 7 :=
  ⟨(build_rss_single_timestamp 7 "N" "https://u" [⟨"t", "l", none⟩]).1,
   (build_rss_single_timestamp 7 "N" "https://u" [⟨"t", "l", none⟩]).2
     ⟨"t", "l", "", "l", 7⟩ (by decide)⟩

/-! ### The site-specific gate is a plain substring test -/

theorem containsL_iff_occurs (hay needle : List Char) :
    containsL hay needle = true ↔ List.IsInfix needle hay := by
  induction hay with
  | nil => simp [containsL, List.isEmpty_iff, List.infix_nil]
  | cons c t ih =>
    rw [containsL]
    simp [List.infix_cons_iff, List.isPrefixOf_iff_prefix, ih]

/-- C10: the Doppiozero rule is gated by a plain substring test on the whole
`base_url` (it holds exactly when `"doppiozero.com"` occurs anywhere in the
string, host, path or query alike — not just in the domain component); when
the substring is absent the site-specific tier is skipped entirely and the
cascade starts at the generic `<article>` tier, and when it is present the
attempted tier is exactly the Doppiozero tier. -/
theorem doppiozero_substring_gate (soup : Node) (base_url : String) :
    (strContains base_url "doppiozero.com" = true ↔
        List.IsInfix "doppiozero.com".toList base_url.toList) ∧
    (strContains base_url "doppiozero.com" = false →
        extract_items_generic soup base_url
          = dedupLinks (if (articleTier (flatten soup) base_url).isEmpty = true
              then headingTier (flatten soup) base_url
              else articleTier (flatten soup) base_url)) ∧
    (strContains base_url "doppiozero.com" = true →
        dzEffective (flatten soup) base_url = dzTier (flatten soup) base_url) := by
  refine ⟨containsL_iff_occurs _ _, fun h => ?_, fun h => ?_⟩
  · simp [extract_items_generic, cascadeItems, dzEffective, h]
  · simp [dzEffective, h]

/-- Witness for C10: the substring may sit in the path of a foreign host and
still pass the gate, and a URL without it skips the Doppiozero tier even on a
document that tier would match. -/
theorem doppiozero_substring_gate_witness :
    strContains "https://mirror.example/doppiozero.com/x" "doppiozero.com" = true ∧
    extract_items_generic dzDoc "https://example.org/sezione"
      = dedupLinks (if (articleTier (flatten dzDoc) "https://example.org/sezione").isEmpty = true
          then headingTier (flatten dzDoc) "https://example.org/sezione"
          else articleTier (flatten dzDoc) "https://example.org/sezione") :=
  ⟨by decide,
   (doppiozero_substring_gate dzDoc "https://example.org/sezione").2.1 (by decide)⟩

/-- The substring gate fires on a URL whose host is not Doppiozero at all:
the site rule is attempted and its items are returned. -/
example :
    extract_items_generic dzDoc "https://mirror.example/doppiozero.com/x"
      = [⟨"Titolo Uno", "https://mirror.example/a1", some "Descrizione uno"⟩,
         ⟨"Titolo  Due", "https://mirror.example/a2", some "Desc generica"⟩] := by decide

/-! ### Provenance of extracted links -/

theorem mem_subNodesL_iff (l : List Node) (m : Node) :
    m ∈ subNodesL l ↔ ∃ c ∈ l, m ∈ subNodes c := by
  induction l with
  | nil => simp [subNodesL]
  | cons c cs ih =>
    rw [subNodesL]
    simp [List.mem_append, ih]

theorem descendantsOf_subset_subNodes (n : Node) :
    ∀ m, m ∈ descendantsOf n → m ∈ subNodes n := by
  cases n with
  | text s => simp [descendantsOf]
  | elem t a cs =>
    intro m hm
    rw [subNodes]
    exact List.mem_cons_of_mem _ hm

theorem mem_subNodes_trans : ∀ (r m n : Node), m ∈ subNodes n → n ∈ subNodes r → m ∈ subNodes r
  | .text s, m, n, h1, h2 => by
    rw [subNodes] at h2
    simp only [List.mem_singleton] at h2
    subst h2
    exact h1
  | .elem t a cs, m, n, h1, h2 => by
    rw [subNodes] at h2 ⊢
    rcases List.mem_cons.mp h2 with rfl | hsub
    · rw [subNodes] at h1
      exact h1
    · obtain ⟨c, hc, hnc⟩ := (mem_subNodesL_iff cs n).mp hsub
      have hm := mem_subNodes_trans c m n h1 hnc
      exact List.mem_cons_of_mem _ ((mem_subNodesL_iff cs m).mpr ⟨c, hc, hm⟩)
termination_by r => sizeOf r
decreasing_by
  have := List.sizeOf_lt_of_mem hc
  simp only [Node.elem.sizeOf_spec]
  omega

mutual
theorem mem_flatNode_subNodes :
    ∀ (n : Node) (anc : List Nat) (i : Nat) (e : FlatNode),
      e ∈ (flatNode anc i n).2 → e.2 ∈ subNodes n
  | .text s, anc, i, e, h => by simp [flatNode] at h
  | .elem t a cs, anc, i, e, h => by
    rw [flatNode] at h
    rcases List.mem_cons.mp h with rfl | h2
    · rw [subNodes]
      exact List.mem_cons_self _ _
    · obtain ⟨c, hc, hce⟩ := mem_flatList_subNodes cs (i :: anc) (i + 1) e h2
      rw [subNodes]
      exact List.mem_cons_of_mem _ ((mem_subNodesL_iff cs e.2).mpr ⟨c, hc, hce⟩)
theorem mem_flatList_subNodes :
    ∀ (l : List Node) (anc : List Nat) (i : Nat) (e : FlatNode),
      e ∈ (flatList anc i l).2 → ∃ c ∈ l, e.2 ∈ subNodes c
  | [], _, _, e, h => by simp [flatList] at h
  | c :: cs, anc, i, e, h => by
    rw [flatList] at h
    rcases List.mem_append.mp h with h1 | h2
    · exact ⟨c, List.mem_cons_self _ _, mem_flatNode_subNodes c anc i e h1⟩
    · obtain ⟨d, hd, hde⟩ := mem_flatList_subNodes cs anc (flatNode anc i c).1 e h2
      exact ⟨d, List.mem_cons_of_mem _ hd, hde⟩
end

theorem mem_flatten_subNodes (soup : Node) (e : FlatNode) (h : e ∈ flatten soup) :
    e.2 ∈ subNodes soup :=
  mem_flatNode_subNodes soup [] 0 e h

theorem attr_mem_docHrefs (soup : Node) (n : Node) (href : String)
    (hn : n ∈ subNodes soup) (ha : n.attr "href" = some href) :
    href ∈ docHrefs soup :=
  List.mem_filterMap.mpr ⟨n, hn, ha⟩

theorem dzItemAt_link (nodes : List FlatNode) (base : String) (anc : List Nat) (n : Node)
    (it : Item) (h : dzItemAt nodes base anc n = some it) :
    ∃ href, n.attr "href" = some href ∧ it.link = urljoin base href := by
  simp only [dzItemAt] at h
  split at h
  · rcases hhref : n.attr "href" with _ | href <;> simp only [hhref] at h
    · cases h
    · split at h
      · cases h
      · simp only [Option.some.injEq] at h
        exact ⟨href, rfl, by rw [← h]⟩
  · cases h

theorem articleItemOf_link (base : String) (n : Node) (it : Item)
    (h : articleItemOf base n = some it) :
    ∃ a ∈ descendantsOf n, ∃ href, a.attr "href" = some href ∧ it.link = urljoin base href := by
  simp only [articleItemOf] at h
  split at h
  · rcases hfind : findDesc n (fun m => m.tag = "a" && (m.attr "href").isSome) with _ | a <;>
      simp only [hfind] at h
    · cases h
    · have hmem : a ∈ descendantsOf n := List.mem_of_find?_eq_some hfind
      have hpred := List.find?_some hfind
      simp only [Bool.and_eq_true, Option.isSome_iff_exists] at hpred
      obtain ⟨-, href, hhref⟩ := hpred
      refine ⟨a, hmem, href, hhref, ?_⟩
      split at h
      · cases h
      · split at h
        · cases h
        · simp only [Option.some.injEq] at h
          rw [← h]
          simp [hhref]
  · cases h

theorem headItemAt_link (nodes : List FlatNode) (base : String) (k : Nat) (anc : List Nat)
    (hn : Node) (it : Item) (h : headItemAt nodes base k anc hn = some it) :
    ∃ a, (a = hn ∨ a ∈ descendantsOf hn) ∧
      ∃ href, a.attr "href" = some href ∧ it.link = urljoin base href := by
  simp only [headItemAt] at h
  split at h
  · rcases ha : (if hn.tag = "a" then some hn
        else findDesc hn (fun m => m.tag = "a" && (m.attr "href").isSome)) with _ | a <;>
      simp only [ha] at h
    · cases h
    · have haOr : a = hn ∨ a ∈ descendantsOf hn := by
        by_cases ht : hn.tag = "a"
        · rw [if_pos ht] at ha
          exact Or.inl (Option.some.inj ha).symm
        · rw [if_neg ht] at ha
          exact Or.inr (List.mem_of_find?_eq_some ha)
      rcases hhref : a.attr "href" with _ | href <;> simp only [hhref] at h
      · cases h
      · split at h
        · cases h
        · split at h
          · cases h
          · split at h
            · cases h
            · refine ⟨a, haOr, href, hhref, ?_⟩
              simp only [Option.some.injEq] at h
              rw [← h]
  · cases h

theorem cascade_cases (soup : Node) (base_url : String) :
    cascadeItems soup base_url = dzEffective (flatten soup) base_url ∨
    cascadeItems soup base_url = articleTier (flatten soup) base_url ∨
    cascadeItems soup base_url = headingTier (flatten soup) base_url := by
  rw [cascadeItems]
  by_cases h1 : (dzEffective (flatten soup) base_url).isEmpty = true
  · by_cases h2 : (articleTier (flatten soup) base_url).isEmpty = true
    · simp [h1, h2]
    · simp [h1, h2]
  · simp [h1]

theorem mem_of_mem_enum {α : Type} {p : Nat × α} {l : List α} (h : p ∈ l.enum) : p.2 ∈ l := by
  obtain ⟨i, x⟩ := p
  obtain ⟨-, h2, h3⟩ := List.mem_enumFrom h
  simp only [Nat.sub_zero, Nat.zero_add] at h2 h3
  exact h3 ▸ List.getElem_mem _

/-- C9: every link stored in an extracted item is the result of resolving an
href found in the document against `base_url` with standard relative-URL
resolution; in particular `/foo/bar` against `https://example.com` gives
`https://example.com/foo/bar`. -/
theorem links_resolved_against_base (soup : Node) (base_url : String) :
    (∀ it ∈ extract_items_generic soup base_url,
        ∃ href ∈ docHrefs soup, it.link = urljoin base_url href) ∧
    urljoin "https://example.com" "/foo/bar" = "https://example.com/foo/bar" := by
  refine ⟨fun it hit => ?_, by decide⟩
  have hsub : it ∈ cascadeItems soup base_url := by
    rw [extract_items_generic, dedupLinks_eq_keepFirst] at hit
    exact (keepFirstByLink_sublist _).subset hit
  rcases cascade_cases soup base_url with hc | hc | hc <;> rw [hc] at hsub
  · rw [dzEffective] at hsub
    split at hsub
    · obtain ⟨e, he, hsome⟩ := List.mem_filterMap.mp hsub
      obtain ⟨href, hhref, hlink⟩ := dzItemAt_link _ _ _ _ _ hsome
      exact ⟨href, attr_mem_docHrefs soup e.2 href (mem_flatten_subNodes soup e he) hhref, hlink⟩
    · exact absurd hsub (by simp)
  · obtain ⟨e, he, hsome⟩ := List.mem_filterMap.mp hsub
    obtain ⟨a, hadesc, href, hhref, hlink⟩ := articleItemOf_link _ _ _ hsome
    have hasub : a ∈ subNodes soup :=
      mem_subNodes_trans soup a e.2 (descendantsOf_subset_subNodes e.2 a hadesc)
        (mem_flatten_subNodes soup e he)
    exact ⟨href, attr_mem_docHrefs soup a href hasub hhref, hlink⟩
  · obtain ⟨e, he, hsome⟩ := List.mem_filterMap.mp hsub
    obtain ⟨a, haOr, href, hhref, hlink⟩ := headItemAt_link _ _ _ _ _ _ hsome
    have hhn : e.2.2 ∈ subNodes soup := mem_flatten_subNodes soup e.2 (mem_of_mem_enum he)
    have hasub : a ∈ subNodes soup := by
      rcases haOr with rfl | hdesc
      · exact hhn
      · exact mem_subNodes_trans soup a e.2.2 (descendantsOf_subset_subNodes e.2.2 a hdesc) hhn
    exact ⟨href, attr_mem_docHrefs soup a href hasub hhref, hlink⟩

/-! ### The exception path of the extractor (claim C1) -/

theorem urljoinE_ok : ∀ (base url s : String),
    urljoinE base url = Except.ok s → s = urljoin base url := by
  intro base url s h
  rw [urljoinE] at h
  split at h
  case isTrue hb =>
    subst hb
    obtain rfl := Except.ok.inj h
    rfl
  case isFalse hb =>
    split at h
    case isTrue hu =>
      subst hu
      obtain rfl := Except.ok.inj h
      cases base with
      | mk data => cases data <;> rfl
    case isFalse hu =>
      split at h
      · cases h
      · split at h
        · cases h
        · exact (Except.ok.inj h).symm

theorem dzItemAtE_ok (nodes : List FlatNode) (base : String) (anc : List Nat) (n : Node)
    (o : Option Item) (h : dzItemAtE nodes base anc n = Except.ok o) :
    o = dzItemAt nodes base anc n := by
  simp only [dzItemAtE] at h
  simp only [dzItemAt]
  split at h
  case isTrue hsel =>
    rw [if_pos hsel]
    rcases hhref : n.attr "href" with _ | href <;> simp only [hhref] at h ⊢
    · exact (Except.ok.inj h).symm
    · split at h
      case isTrue hskip =>
        rw [if_pos hskip]
        exact (Except.ok.inj h).symm
      case isFalse hskip =>
        rw [if_neg hskip]
        split at h
        · cases h
        · rename_i link hlink
          obtain rfl := Except.ok.inj h
          rw [urljoinE_ok base href link hlink]
  case isFalse hsel =>
    rw [if_neg hsel]
    exact (Except.ok.inj h).symm

theorem dzItemAtE_error (nodes : List FlatNode) (base : String) (anc : List Nat) (n : Node)
    (e : String) (h : dzItemAtE nodes base anc n = Except.error e) :
    ∃ href, n.attr "href" = some href ∧ urljoinE base href = Except.error e := by
  simp only [dzItemAtE] at h
  split at h
  case isTrue hsel =>
    rcases hhref : n.attr "href" with _ | href <;> simp only [hhref] at h
    · cases h
    · split at h
      · cases h
      · split at h
        · rename_i e' hlink
          obtain rfl := Except.error.inj h
          exact ⟨href, rfl, hlink⟩
        · cases h
  case isFalse hsel => cases h

theorem articleItemOfE_ok (base : String) (n : Node) (o : Option Item)
    (h : articleItemOfE base n = Except.ok o) : o = articleItemOf base n := by
  simp only [articleItemOfE] at h
  simp only [articleItemOf]
  split at h
  case isTrue hsel =>
    rw [if_pos hsel]
    rcases hfind : findDesc n (fun m => m.tag = "a" && (m.attr "href").isSome)
        with _ | a <;> simp only [hfind] at h ⊢
    · exact (Except.ok.inj h).symm
    · split at h
      · cases h
      · rename_i link hlink
        rw [urljoinE_ok base _ link hlink] at h
        rcases htitle : (if getTextSp a = "" then a.attr "title" else some (getTextSp a))
            with _ | t <;> simp only [htitle] at h ⊢
        · exact (Except.ok.inj h).symm
        · split at h
          case isTrue hskip =>
            rw [if_pos hskip]
            exact (Except.ok.inj h).symm
          case isFalse hskip =>
            rw [if_neg hskip]
            exact (Except.ok.inj h).symm
  case isFalse hsel =>
    rw [if_neg hsel]
    exact (Except.ok.inj h).symm

theorem articleItemOfE_error (base : String) (n : Node) (e : String)
    (h : articleItemOfE base n = Except.error e) :
    ∃ a ∈ descendantsOf n, ∃ href, a.attr "href" = some href ∧
      urljoinE base href = Except.error e := by
  simp only [articleItemOfE] at h
  split at h
  case isTrue hsel =>
    rcases hfind : findDesc n (fun m => m.tag = "a" && (m.attr "href").isSome)
        with _ | a <;> simp only [hfind] at h
    · cases h
    · have hmem : a ∈ descendantsOf n := List.mem_of_find?_eq_some hfind
      have hpred := List.find?_some hfind
      simp only [Bool.and_eq_true, Option.isSome_iff_exists] at hpred
      obtain ⟨-, href, hhref⟩ := hpred
      split at h
      · rename_i e2 hlink
        obtain rfl := Except.error.inj h
        refine ⟨a, hmem, href, hhref, ?_⟩
        rw [hhref] at hlink
        exact hlink
      · split at h
        · cases h
        · split at h <;> cases h
  case isFalse hsel => cases h

theorem headItemAtE_ok (nodes : List FlatNode) (base : String) (k : Nat) (anc : List Nat)
    (hn : Node) (o : Option Item) (h : headItemAtE nodes base k anc hn = Except.ok o) :
    o = headItemAt nodes base k anc hn := by
  simp only [headItemAtE] at h
  simp only [headItemAt]
  split at h
  case isTrue hsel =>
    rw [if_pos hsel]
    rcases ha : (if hn.tag = "a" then some hn
        else findDesc hn (fun m => m.tag = "a" && (m.attr "href").isSome))
        with _ | a <;> simp only [ha] at h ⊢
    · exact (Except.ok.inj h).symm
    · rcases hhref : a.attr "href" with _ | href <;> simp only [hhref] at h ⊢
      · exact (Except.ok.inj h).symm
      · split at h
        case isTrue hskip =>
          rw [if_pos hskip]
          exact (Except.ok.inj h).symm
        case isFalse hskip =>
          rw [if_neg hskip]
          split at h
          · cases h
          · rename_i link hlink
            rw [urljoinE_ok base href link hlink] at h
            rcases htitle : (if getTextSp a = "" then a.attr "title" else some (getTextSp a))
                with _ | t <;> simp only [htitle] at h ⊢
            · exact (Except.ok.inj h).symm
            · split at h
              case isTrue hskip2 =>
                rw [if_pos hskip2]
                exact (Except.ok.inj h).symm
              case isFalse hskip2 =>
                rw [if_neg hskip2]
                exact (Except.ok.inj h).symm
  case isFalse hsel =>
    rw [if_neg hsel]
    exact (Except.ok.inj h).symm

theorem headItemAtE_error (nodes : List FlatNode) (base : String) (k : Nat) (anc : List Nat)
    (hn : Node) (e : String) (h : headItemAtE nodes base k anc hn = Except.error e) :
    ∃ a, (a = hn ∨ a ∈ descendantsOf hn) ∧ ∃ href, a.attr "href" = some href ∧
      urljoinE base href = Except.error e := by
  simp only [headItemAtE] at h
  split at h
  case isTrue hsel =>
    rcases ha : (if hn.tag = "a" then some hn
        else findDesc hn (fun m => m.tag = "a" && (m.attr "href").isSome))
        with _ | a <;> simp only [ha] at h
    · cases h
    · have haOr : a = hn ∨ a ∈ descendantsOf hn := by
        by_cases ht : hn.tag = "a"
        · rw [if_pos ht] at ha
          exact Or.inl (Option.some.inj ha).symm
        · rw [if_neg ht] at ha
          exact Or.inr (List.mem_of_find?_eq_some ha)
      rcases hhref : a.attr "href" with _ | href <;> simp only [hhref] at h
      · cases h
      · split at h
        · cases h
        · split at h
          · rename_i e2 hlink
            obtain rfl := Except.error.inj h
            exact ⟨a, haOr, href, hhref, hlink⟩
          · split at h
            · cases h
            · split at h <;> cases h
  case isFalse hsel => cases h

theorem dzTierEGo_ok (nodes : List FlatNode) (base : String) :
    ∀ (l : List FlatNode) (items : List Item), dzTierEGo nodes base l = Except.ok items →
      items = l.filterMap (fun e => dzItemAt nodes base e.1 e.2) := by
  intro l
  induction l with
  | nil =>
    intro items h
    exact (Except.ok.inj h).symm
  | cons x rest ih =>
    intro items h
    rw [dzTierEGo] at h
    split at h
    · cases h
    · rename_i hnone
      have hfx : (fun e : FlatNode => dzItemAt nodes base e.1 e.2) x = none :=
        (dzItemAtE_ok _ _ _ _ _ hnone).symm
      rw [@List.filterMap_cons_none FlatNode Item
        (fun e => dzItemAt nodes base e.1 e.2) x rest hfx]
      exact ih items h
    · rename_i it hsome
      split at h
      · cases h
      · rename_i l2 hl2
        obtain rfl := Except.ok.inj h
        have hfx : (fun e : FlatNode => dzItemAt nodes base e.1 e.2) x = some it :=
          (dzItemAtE_ok _ _ _ _ _ hsome).symm
        rw [@List.filterMap_cons_some FlatNode Item
          (fun e => dzItemAt nodes base e.1 e.2) x rest it hfx, ih l2 hl2]

theorem dzTierEGo_error (nodes : List FlatNode) (base : String) :
    ∀ (l : List FlatNode) (e : String), dzTierEGo nodes base l = Except.error e →
      ∃ fe ∈ l, ∃ href, fe.2.attr "href" = some href ∧
        urljoinE base href = Except.error e := by
  intro l
  induction l with
  | nil => intro e h; cases h
  | cons x rest ih =>
    intro e h
    rw [dzTierEGo] at h
    split at h
    · rename_i msg hmsg
      obtain rfl := Except.error.inj h
      obtain ⟨href, h1, h2⟩ := dzItemAtE_error _ _ _ _ _ hmsg
      exact ⟨x, List.mem_cons_self _ _, href, h1, h2⟩
    · rename_i hnone
      obtain ⟨fe, hmem, hrest⟩ := ih e h
      exact ⟨fe, List.mem_cons_of_mem _ hmem, hrest⟩
    · rename_i it hsome
      split at h
      · rename_i msg hmsg
        obtain rfl := Except.error.inj h
        obtain ⟨fe, hmem, hrest⟩ := ih _ hmsg
        exact ⟨fe, List.mem_cons_of_mem _ hmem, hrest⟩
      · cases h

theorem articleTierEGo_ok (base : String) :
    ∀ (l : List FlatNode) (items : List Item), articleTierEGo base l = Except.ok items →
      items = l.filterMap (fun e => articleItemOf base e.2) := by
  intro l
  induction l with
  | nil =>
    intro items h
    exact (Except.ok.inj h).symm
  | cons x rest ih =>
    intro items h
    rw [articleTierEGo] at h
    split at h
    · cases h
    · rename_i hnone
      have hfx : (fun e : FlatNode => articleItemOf base e.2) x = none :=
        (articleItemOfE_ok _ _ _ hnone).symm
      rw [@List.filterMap_cons_none FlatNode Item
        (fun e => articleItemOf base e.2) x rest hfx]
      exact ih items h
    · rename_i it hsome
      split at h
      · cases h
      · rename_i l2 hl2
        obtain rfl := Except.ok.inj h
        have hfx : (fun e : FlatNode => articleItemOf base e.2) x = some it :=
          (articleItemOfE_ok _ _ _ hsome).symm
        rw [@List.filterMap_cons_some FlatNode Item
          (fun e => articleItemOf base e.2) x rest it hfx, ih l2 hl2]

theorem articleTierEGo_error (base : String) :
    ∀ (l : List FlatNode) (e : String), articleTierEGo base l = Except.error e →
      ∃ fe ∈ l, ∃ a ∈ descendantsOf fe.2, ∃ href, a.attr "href" = some href ∧
        urljoinE base href = Except.error e := by
  intro l
  induction l with
  | nil => intro e h; cases h
  | cons x rest ih =>
    intro e h
    rw [articleTierEGo] at h
    split at h
    · rename_i msg hmsg
      obtain rfl := Except.error.inj h
      obtain ⟨a, hdesc, href, h1, h2⟩ := articleItemOfE_error _ _ _ hmsg
      exact ⟨x, List.mem_cons_self _ _, a, hdesc, href, h1, h2⟩
    · rename_i hnone
      obtain ⟨fe, hmem, hrest⟩ := ih e h
      exact ⟨fe, List.mem_cons_of_mem _ hmem, hrest⟩
    · rename_i it hsome
      split at h
      · rename_i msg hmsg
        obtain rfl := Except.error.inj h
        obtain ⟨fe, hmem, hrest⟩ := ih _ hmsg
        exact ⟨fe, List.mem_cons_of_mem _ hmem, hrest⟩
      · cases h

theorem headingTierEGo_ok (nodes : List FlatNode) (base : String) :
    ∀ (l : List (Nat × FlatNode)) (items : List Item),
      headingTierEGo nodes base l = Except.ok items →
      items = l.filterMap (fun p => headItemAt nodes base p.1 p.2.1 p.2.2) := by
  intro l
  induction l with
  | nil =>
    intro items h
    exact (Except.ok.inj h).symm
  | cons x rest ih =>
    intro items h
    rw [headingTierEGo] at h
    split at h
    · cases h
    · rename_i hnone
      have hfx : (fun p : Nat × FlatNode => headItemAt nodes base p.1 p.2.1 p.2.2) x = none :=
        (headItemAtE_ok _ _ _ _ _ _ hnone).symm
      rw [@List.filterMap_cons_none (Nat × FlatNode) Item
        (fun p => headItemAt nodes base p.1 p.2.1 p.2.2) x rest hfx]
      exact ih items h
    · rename_i it hsome
      split at h
      · cases h
      · rename_i l2 hl2
        obtain rfl := Except.ok.inj h
        have hfx : (fun p : Nat × FlatNode => headItemAt nodes base p.1 p.2.1 p.2.2) x
            = some it := (headItemAtE_ok _ _ _ _ _ _ hsome).symm
        rw [@List.filterMap_cons_some (Nat × FlatNode) Item
          (fun p => headItemAt nodes base p.1 p.2.1 p.2.2) x rest it hfx, ih l2 hl2]

theorem headingTierEGo_error (nodes : List FlatNode) (base : String) :
    ∀ (l : List (Nat × FlatNode)) (e : String), headingTierEGo nodes base l = Except.error e →
      ∃ p ∈ l, ∃ a, (a = p.2.2 ∨ a ∈ descendantsOf p.2.2) ∧
        ∃ href, a.attr "href" = some href ∧ urljoinE base href = Except.error e := by
  intro l
  induction l with
  | nil => intro e h; cases h
  | cons x rest ih =>
    intro e h
    rw [headingTierEGo] at h
    split at h
    · rename_i msg hmsg
      obtain rfl := Except.error.inj h
      obtain ⟨a, haOr, href, h1, h2⟩ := headItemAtE_error _ _ _ _ _ _ hmsg
      exact ⟨x, List.mem_cons_self _ _, a, haOr, href, h1, h2⟩
    · rename_i hnone
      obtain ⟨p, hmem, hrest⟩ := ih e h
      exact ⟨p, List.mem_cons_of_mem _ hmem, hrest⟩
    · rename_i it hsome
      split at h
      · rename_i msg hmsg
        obtain rfl := Except.error.inj h
        obtain ⟨p, hmem, hrest⟩ := ih _ hmsg
        exact ⟨p, List.mem_cons_of_mem _ hmem, hrest⟩
      · cases h

theorem extract_items_genericE_ok (soup : Node) (base_url : String) :
    ∀ l, extract_items_genericE soup base_url = Except.ok l →
      l = extract_items_generic soup base_url := by
  intro l h
  rw [extract_items_genericE] at h
  rw [extract_items_generic, cascadeItems]
  split at h
  · cases h
  · rename_i items1 h1
    have hi1 : items1 = dzEffective (flatten soup) base_url := by
      rw [dzEffective]
      split at h1
      · rename_i hc
        rw [if_pos hc]
        exact dzTierEGo_ok _ _ _ _ h1
      · rename_i hc
        rw [if_neg hc]
        exact (Except.ok.inj h1).symm
    rw [← hi1]
    split at h
    · cases h
    · rename_i items2 h2
      have hi2 : items2 = if items1.isEmpty then articleTier (flatten soup) base_url
          else items1 := by
        split at h2
        · rename_i hc
          rw [if_pos hc, articleTier]
          exact articleTierEGo_ok _ _ _ h2
        · rename_i hc
          rw [if_neg hc]
          exact (Except.ok.inj h2).symm
      rw [← hi2]
      split at h
      · cases h
      · rename_i items3 h3
        have hi3 : items3 = if items2.isEmpty then headingTier (flatten soup) base_url
            else items2 := by
          split at h3
          · rename_i hc
            rw [if_pos hc, headingTier]
            exact headingTierEGo_ok _ _ _ _ h3
          · rename_i hc
            rw [if_neg hc]
            exact (Except.ok.inj h3).symm
        rw [← hi3]
        exact (Except.ok.inj h).symm

theorem extract_items_genericE_error (soup : Node) (base_url : String) :
    ∀ e, extract_items_genericE soup base_url = Except.error e →
      ∃ href ∈ docHrefs soup, urljoinE base_url href = Except.error e := by
  intro e h
  rw [extract_items_genericE] at h
  split at h
  · rename_i e2 h1
    obtain rfl := Except.error.inj h
    split at h1
    · obtain ⟨fe, hmem, href, ha, hu⟩ := dzTierEGo_error _ _ _ _ h1
      exact ⟨href, attr_mem_docHrefs soup fe.2 href (mem_flatten_subNodes soup fe hmem) ha, hu⟩
    · cases h1
  · rename_i items1 h1
    split at h
    · rename_i e2 h2
      obtain rfl := Except.error.inj h
      split at h2
      · obtain ⟨fe, hmem, a, hdesc, href, ha, hu⟩ := articleTierEGo_error _ _ _ h2
        have hasub : a ∈ subNodes soup :=
          mem_subNodes_trans soup a fe.2 (descendantsOf_subset_subNodes fe.2 a hdesc)
            (mem_flatten_subNodes soup fe hmem)
        exact ⟨href, attr_mem_docHrefs soup a href hasub ha, hu⟩
      · cases h2
    · rename_i items2 h2
      split at h
      · rename_i e2 h3
        obtain rfl := Except.error.inj h
        split at h3
        · obtain ⟨p, hmem, a, haOr, href, ha, hu⟩ := headingTierEGo_error _ _ _ _ h3
          have hhn : p.2.2 ∈ subNodes soup :=
            mem_flatten_subNodes soup p.2 (mem_of_mem_enum hmem)
          have hasub : a ∈ subNodes soup := by
            rcases haOr with rfl | hdesc
            · exact hhn
            · exact mem_subNodes_trans soup a p.2.2
                (descendantsOf_subset_subNodes p.2.2 a hdesc) hhn
          exact ⟨href, attr_mem_docHrefs soup a href hasub ha, hu⟩
        · cases h3
      · cases h

theorem lexLe_total : ∀ a b : List Char, lexLe a b = true ∨ lexLe b a = true
  | [], _ => Or.inl rfl
  | _ :: _, [] => Or.inr rfl
  | x :: xs, y :: ys => by
    by_cases hxy : x = y
    · subst hxy
      rcases lexLe_total xs ys with h | h
      · left; simp [lexLe, h]
      · right; simp [lexLe, h]
    · rcases lt_trichotomy x y with h | h | h
      · left; simp [lexLe, hxy, h]
      · exact absurd h hxy
      · right
        have hne : y ≠ x := fun e => hxy e.symm
        simp [lexLe, hne, h]

theorem lexLe_trans : ∀ a b c : List Char,
    lexLe a b = true → lexLe b c = true → lexLe a c = true
  | [], _, _, _, _ => rfl
  | x :: xs, [], c, h, _ => by simp [lexLe] at h
  | x :: xs, y :: ys, [], _, h2 => by simp [lexLe] at h2
  | x :: xs, y :: ys, z :: zs, h1, h2 => by
    rw [lexLe] at h1 h2 ⊢
    by_cases hxy : x = y
    · subst hxy
      by_cases hyz : x = z
      · subst hyz
        simp only [if_pos rfl] at h1 h2 ⊢
        exact lexLe_trans xs ys zs h1 h2
      · simp only [if_neg hyz] at h2 ⊢
        exact h2
    · by_cases hyz : y = z
      · subst hyz
        simp only [if_neg hxy] at h1 ⊢
        exact h1
      · simp only [if_neg hxy] at h1
        simp only [if_neg hyz] at h2
        have hxz : x < z := lt_trans (of_decide_eq_true h1) (of_decide_eq_true h2)
        simp [ne_of_lt hxz, hxz]

theorem insertSorted_perm (x : String) (l : List String) :
    List.Perm (insertSorted x l) (x :: l) := by
  induction l with
  | nil => exact List.Perm.refl _
  | cons y ys ih =>
    rw [insertSorted]
    split
    · exact List.Perm.refl _
    · exact (ih.cons y).trans (List.Perm.swap x y ys)

theorem sortStrs_perm (l : List String) : List.Perm (sortStrs l) l := by
  induction l with
  | nil => exact List.Perm.refl _
  | cons x xs ih => exact (insertSorted_perm x (sortStrs xs)).trans (ih.cons x)

theorem insertSorted_pairwise (x : String) (l : List String)
    (hl : List.Pairwise (fun a b => lexLe a.toList b.toList = true) l) :
    List.Pairwise (fun a b => lexLe a.toList b.toList = true) (insertSorted x l) := by
  induction l with
  | nil => simp [insertSorted]
  | cons y ys ih =>
    rw [List.pairwise_cons] at hl
    obtain ⟨hy, hys⟩ := hl
    rw [insertSorted]
    split
    · rename_i hxy
      refine List.Pairwise.cons (fun z hz => ?_) (List.Pairwise.cons hy hys)
      rcases List.mem_cons.mp hz with rfl | hz2
      · exact hxy
      · exact lexLe_trans _ _ _ hxy (hy z hz2)
    · rename_i hxy
      have hyx : lexLe y.toList x.toList = true := by
        rcases lexLe_total x.toList y.toList with h | h
        · exact absurd h hxy
        · exact h
      refine List.Pairwise.cons (fun z hz => ?_) (ih hys)
      have hz2 : z ∈ x :: ys := (insertSorted_perm x ys).subset hz
      rcases List.mem_cons.mp hz2 with rfl | hz3
      · exact hyx
      · exact hy z hz3

theorem sortStrs_pairwise (l : List String) :
    List.Pairwise (fun a b => lexLe a.toList b.toList = true) (sortStrs l) := by
  induction l with
  | nil => simp [sortStrs]
  | cons x xs ih => exact insertSorted_pairwise x (sortStrs xs) ih

/-- C6: the Index Builder writes nothing and reports failure exactly when the
directory listing contains no name ending in `.xml` (case-insensitively);
otherwise it reports success with a document over exactly the matching
filenames, in lexicographic order. -/
theorem write_opml_no_xml_fails (absOf : String → String) (listing : List String)
    (dirPath : String) (base_url : Option String) :
    (write_opml_from_dir absOf listing dirPath base_url = none ↔
        ∀ f ∈ listing, isXmlName f = false) ∧
    ((∃ f ∈ listing, isXmlName f = true) →
        ∃ doc, write_opml_from_dir absOf listing dirPath base_url = some doc) ∧
    List.Perm (xmlFilesOf listing) (listing.filter isXmlName) ∧
    (xmlFilesOf listing).Pairwise (fun a b => lexLe a.toList b.toList = true) := by
  have hperm : List.Perm (xmlFilesOf listing) (listing.filter isXmlName) :=
    List.Perm.filter _ (sortStrs_perm listing)
  have hnil : xmlFilesOf listing = [] ↔ listing.filter isXmlName = [] := by
    constructor
    · intro h; exact List.Perm.eq_nil (h ▸ hperm).symm
    · intro h; exact List.Perm.eq_nil (h ▸ hperm)
  refine ⟨?_, ?_, hperm, ?_⟩
  · rw [write_opml_from_dir]
    constructor
    · intro h
      split at h
      · rename_i he
        rw [List.isEmpty_iff, hnil, List.filter_eq_nil_iff] at he
        intro f hf
        simpa using he f hf
      · cases h
    · intro h
      have he : (xmlFilesOf listing).isEmpty = true := by
        rw [List.isEmpty_iff, hnil, List.filter_eq_nil_iff]
        intro f hf
        simp [h f hf]
      rw [if_pos he]
  · rintro ⟨f, hf, hxml⟩
    rw [write_opml_from_dir]
    have hne : (xmlFilesOf listing).isEmpty = false := by
      rw [Bool.eq_false_iff]
      intro he
      rw [List.isEmpty_iff, hnil, List.filter_eq_nil_iff] at he
      exact absurd hxml (by simpa using he f hf)
    rw [hne]
    simp
  · exact List.Pairwise.sublist (List.filter_sublist _) (sortStrs_pairwise listing)

/-- Witness for C6: a listing with two feed files (one upper-case) and a
stray file produces the OPML over the two, in lexicographic order; a listing
with no feed file produces nothing. -/
theorem write_opml_no_xml_fails_witness :
    (∃ doc, write_opml_from_dir (fun s => s) ["b.XML", "a.xml", "note.txt"] "/out"
        (some "https://host/base") = some doc) ∧
    write_opml_from_dir (fun s => s) ["note.txt"] "/out" (some "https://host/base") = none :=
  ⟨(write_opml_no_xml_fails (fun s => s) ["b.XML", "a.xml", "note.txt"] "/out"
      (some "https://host/base")).2.1 ⟨"a.xml", by decide, by decide⟩,
   by decide⟩

theorem dropTrail_eq_self (p : Char → Bool) (l : List Char)
    (h : ∀ c, l.getLast? = some c → p c = false) : dropTrail p l = l := by
  rw [dropTrail]
  cases hr : l.reverse with
  | nil =>
    have : l = [] := by simpa using congrArg List.reverse hr
    simp [this]
  | cons c cs =>
    have hlast : l.getLast? = some c := by
      rw [← List.head?_reverse, hr]
      rfl
    rw [List.dropWhile_cons_of_neg (by simp [h c hlast])]
    rw [← hr, List.reverse_reverse]

/-- C7: with a configured non-empty base URL the outline's `xmlUrl` is the
base (with trailing slashes removed, so literally `base/f` whenever the base
has no trailing slash) joined to the filename by one slash; with no base it
is `file://` followed by the absolute path of the file; both the text and the
xmlUrl attribute values pass through `html.escape`. -/
theorem opml_entry_url_shape (absOf : String → String) (dirPath b f : String) :
    (b ≠ "" →
        opmlEntry absOf dirPath (some b) f
          = "    <outline text=\"" ++ htmlEscape (splitextRoot f) ++ "\" type=\"rss\" xmlUrl=\""
              ++ htmlEscape (rstripSlash b ++ "/" ++ f) ++ "\"/>") ∧
    (b.toList.getLast? ≠ some '/' → rstripSlash b = b) ∧
    (opmlEntry absOf dirPath none f
        = "    <outline text=\"" ++ htmlEscape (splitextRoot f) ++ "\" type=\"rss\" xmlUrl=\""
            ++ htmlEscape ("file://" ++ absOf (pathJoin dirPath f)) ++ "\"/>") := by
  refine ⟨fun hb => ?_, fun hb => ?_, ?_⟩
  · rw [opmlEntry, if_pos hb]
  · rw [rstripSlash, dropTrail_eq_self]
    · cases b
      rfl
    · intro c hc
      simp only [hc, Option.some.injEq] at hb ⊢
      simpa using fun e => hb (by simp [e])
  · rw [opmlEntry]

/-- Witness for C7 at concrete arguments: trailing slash stripped before the
join, local-file form without a base, and escaping applied to both fields. -/
theorem opml_entry_url_shape_witness :
    opmlEntry (fun s => s) "/out" (some "https://host/base/") "a&b.xml"
      = "    <outline text=\"a&amp;b\" type=\"rss\" xmlUrl=\"https://host/base/a&amp;b.xml\"/>" ∧
    rstripSlash "https://host/base" = "https://host/base" ∧
    opmlEntry (fun s => s) "/out" none "a.xml"
      = "    <outline text=\"a\" type=\"rss\" xmlUrl=\"file:///out/a.xml\"/>" :=
  ⟨by decide,
   (opml_entry_url_shape (fun s => s) "/out" "https://host/base" "a.xml").2.1 (by decide),
   by decide⟩

/-! ### The spreadsheet reader -/

theorem validRowsAt_entries (ni ui : Nat) (dataRows : List (List Cell)) :
    ∀ pr ∈ validRowsAt ni ui dataRows, pr.1 ≠ "" ∧ pr.2 ≠ "" := by
  intro pr hpr
  rw [validRowsAt] at hpr
  obtain ⟨row, -, hsome⟩ := List.mem_filterMap.mp hpr
  split at hsome
  · cases hsome
  · dsimp only at hsome
    split at hsome
    · rename_i hcond
      simp only [Option.some.injEq] at hsome
      rw [← hsome]
      exact hcond
    · cases hsome

theorem not_mem_of_findIdx?_eq_none {hs : List Cell} {v : Cell}
    (h : hs.findIdx? (· = v) = none) : ¬ v ∈ hs := by
  intro hmem
  have := List.findIdx?_eq_none_iff.mp h v hmem
  simp at this

theorem mem_of_findIdx?_eq_some {hs : List Cell} {v : Cell} {i : Nat}
    (h : hs.findIdx? (· = v) = some i) : v ∈ hs := by
  obtain ⟨hlt, hp, -⟩ := List.findIdx?_eq_some_iff_getElem.mp h
  have hv : hs[i] = v := by simpa using hp
  exact hv ▸ List.getElem_mem hlt

/-- C8: reading the spreadsheet is fatal exactly when the normalised header
row lacks a `name` column or a `url` column, or no valid data row remains;
and data rows missing either value are skipped silently — they never reach
the output and, as long as one valid row exists, they do not abort the run. -/
theorem read_excel_fatality (header : List Cell) (dataRows : List (List Cell)) :
    ((∃ e, read_excel_rows header dataRows = Except.error e) ↔
        (¬ some "name" ∈ header.map headerKey ∨ ¬ some "url" ∈ header.map headerKey ∨
          ∃ ni ui, (header.map headerKey).findIdx? (· = some "name") = some ni ∧
            (header.map headerKey).findIdx? (· = some "url") = some ui ∧
            validRowsAt ni ui dataRows = [])) ∧
    (∀ rows, read_excel_rows header dataRows = Except.ok rows →
        ∀ pr ∈ rows, pr.1 ≠ "" ∧ pr.2 ≠ "") ∧
    (∀ ni ui, (header.map headerKey).findIdx? (· = some "name") = some ni →
        (header.map headerKey).findIdx? (· = some "url") = some ui →
        validRowsAt ni ui dataRows ≠ [] →
        read_excel_rows header dataRows = Except.ok (validRowsAt ni ui dataRows)) := by
  rcases hn : (header.map headerKey).findIdx? (· = some "name") with _ | ni
  · have herr : read_excel_rows header dataRows
        = Except.error "L'Excel deve avere intestazioni: 'name' e 'url' sulla prima riga." := by
      rw [read_excel_rows, hn]
    refine ⟨⟨fun _ => Or.inl (not_mem_of_findIdx?_eq_none hn), fun _ => ⟨_, herr⟩⟩,
      fun rows hok => ?_, fun ni2 ui2 hni2 _ _ => Option.noConfusion hni2⟩
    rw [herr] at hok
    cases hok
  · rcases hu : (header.map headerKey).findIdx? (· = some "url") with _ | ui
    · have herr : read_excel_rows header dataRows
          = Except.error "L'Excel deve avere intestazioni: 'name' e 'url' sulla prima riga." := by
        rw [read_excel_rows, hn, hu]
      refine ⟨⟨fun _ => Or.inr (Or.inl (not_mem_of_findIdx?_eq_none hu)), fun _ => ⟨_, herr⟩⟩,
        fun rows hok => ?_, fun ni2 ui2 _ hui2 _ => Option.noConfusion hui2⟩
      rw [herr] at hok
      cases hok
    · have hred : read_excel_rows header dataRows
          = (if (validRowsAt ni ui dataRows).isEmpty = true
              then Except.error "Nessuna riga valida trovata (servono name e url)."
              else Except.ok (validRowsAt ni ui dataRows)) := by
        rw [read_excel_rows, hn, hu]
      by_cases hv : (validRowsAt ni ui dataRows).isEmpty = true
      · rw [if_pos hv] at hred
        refine ⟨⟨fun _ => Or.inr (Or.inr ⟨ni, ui, rfl, rfl, List.isEmpty_iff.mp hv⟩),
            fun _ => ⟨_, hred⟩⟩, fun rows hok => ?_, fun ni2 ui2 hni2 hui2 hne => ?_⟩
        · rw [hred] at hok
          cases hok
        · obtain rfl : ni2 = ni := (Option.some.inj hni2).symm
          obtain rfl : ui2 = ui := (Option.some.inj hui2).symm
          exact absurd (List.isEmpty_iff.mp hv) hne
      · rw [if_neg hv] at hred
        refine ⟨⟨fun he => ?_, fun hOr => ?_⟩, fun rows hok => ?_,
          fun ni2 ui2 hni2 hui2 hne => ?_⟩
        · obtain ⟨e, he⟩ := he
          rw [hred] at he
          cases he
        · exfalso
          rcases hOr with hmem | hmem | ⟨ni2, ui2, hni2, hui2, hnil⟩
          · exact hmem (mem_of_findIdx?_eq_some hn)
          · exact hmem (mem_of_findIdx?_eq_some hu)
          · obtain rfl : ni2 = ni := (Option.some.inj hni2).symm
            obtain rfl : ui2 = ui := (Option.some.inj hui2).symm
            rw [hnil] at hv
            exact hv rfl
        · rw [hred] at hok
          obtain rfl := Except.ok.inj hok
          exact validRowsAt_entries ni ui dataRows
        · obtain rfl : ni2 = ni := (Option.some.inj hni2).symm
          obtain rfl : ui2 = ui := (Option.some.inj hui2).symm
          exact hred

/-- Witness for C8: a header matching only after trimming and lowercasing,
one valid row, one whitespace-only row (skipped) and one empty tuple
(skipped) produce exactly the valid row, with no fatal error. -/
theorem read_excel_fatality_witness :
    read_excel_rows [some " Name", some "URL "]
        [[some "A", some "http://x"], [some " ", some "http://y"], []]
      = Except.ok [("A", "http://x")] :=
  (read_excel_fatality [some " Name", some "URL "]
      [[some "A", some "http://x"], [some " ", some "http://y"], []]).2.2 0 1
    (by decide) (by decide) (by decide)

/-! ### `slugify` equals its specification -/

theorem not_hyphen_of_isSlugChar {c : Char} (h : isSlugChar c = true) : (c = '-') = False := by
  simp only [eq_iff_iff, iff_false]
  intro he
  rw [he] at h
  exact absurd h (by decide)

theorem dropWhile_hyphen_sub_true (cs : List Char) :
    List.dropWhile (· = '-') (subNonAlnum true cs) = subNonAlnum true cs := by
  induction cs with
  | nil => rfl
  | cons c cs ih =>
    rw [subNonAlnum]
    by_cases hc : isSlugChar c = true
    · rw [if_pos hc]
      rw [List.dropWhile_cons_of_neg (by simp [not_hyphen_of_isSlugChar hc])]
    · rw [if_neg hc, if_pos rfl]
      exact ih

theorem sub_true_eq_sub_false_dropWhile (cs : List Char) :
    subNonAlnum true cs = subNonAlnum false (cs.dropWhile (fun c => !isSlugChar c)) := by
  induction cs with
  | nil => rfl
  | cons c cs ih =>
    by_cases hc : isSlugChar c = true
    · rw [subNonAlnum, if_pos hc,
        List.dropWhile_cons_of_neg (by simp [hc]), subNonAlnum, if_pos hc]
    · rw [subNonAlnum, if_neg hc, if_pos rfl,
        List.dropWhile_cons_of_pos (by simp [hc])]
      exact ih

theorem dropWhile_hyphen_sub_false (l : List Char) :
    List.dropWhile (· = '-') (subNonAlnum false l)
      = subNonAlnum false (l.dropWhile (fun c => !isSlugChar c)) := by
  cases l with
  | nil => rfl
  | cons c cs =>
    by_cases hc : isSlugChar c = true
    · rw [subNonAlnum, if_pos hc,
        List.dropWhile_cons_of_neg (by simp [not_hyphen_of_isSlugChar hc]),
        List.dropWhile_cons_of_neg (by simp [hc]), subNonAlnum, if_pos hc]
    · rw [subNonAlnum, if_neg hc, if_neg (by simp), List.dropWhile_cons_of_pos (by simp),
        dropWhile_hyphen_sub_true, List.dropWhile_cons_of_pos (by simp [hc])]
      exact sub_true_eq_sub_false_dropWhile cs

theorem dropTrail_cons (p : Char → Bool) (x : Char) (xs : List Char) :
    dropTrail p (x :: xs)
      = if dropTrail p xs = [] then (if p x then [] else [x]) else x :: dropTrail p xs := by
  rw [dropTrail, List.reverse_cons, List.dropWhile_append]
  by_cases he : (List.dropWhile p xs.reverse).isEmpty = true
  · rw [if_pos he]
    have h2 : dropTrail p xs = [] := by
      rw [dropTrail, List.isEmpty_iff.mp he]
      rfl
    rw [if_pos h2, List.dropWhile]
    by_cases hp : p x = true
    · rw [hp]
      simp
    · rw [Bool.eq_false_iff.mpr hp]
      rfl
  · rw [if_neg he]
    have h2 : dropTrail p xs ≠ [] := by
      rw [dropTrail]
      intro hc
      rw [List.isEmpty_iff] at he
      exact he (by simpa using congrArg List.reverse hc)
    rw [if_neg h2, List.reverse_append, dropTrail]
    rfl

theorem sub_false_ne_nil (l : List Char) (h : l ≠ []) : subNonAlnum false l ≠ [] := by
  cases l with
  | nil => exact absurd rfl h
  | cons c cs =>
    rw [subNonAlnum]
    by_cases hc : isSlugChar c = true
    · rw [if_pos hc]
      exact List.cons_ne_nil _ _
    · rw [if_neg hc, if_neg (by simp)]
      exact List.cons_ne_nil _ _

theorem dropWhile_head_false (p : Char → Bool) :
    ∀ (l : List Char) (c : Char) (cs : List Char), List.dropWhile p l = c :: cs → p c = false := by
  intro l
  induction l with
  | nil => intro c cs h; cases h
  | cons x xs ih =>
    intro c cs h
    by_cases hp : p x = true
    · rw [List.dropWhile_cons_of_pos hp] at h
      exact ih c cs h
    · rw [List.dropWhile_cons_of_neg hp] at h
      obtain ⟨rfl, -⟩ := List.cons.inj h
      exact Bool.eq_false_iff.mpr hp

theorem sub_true_ne_nil (l : List Char) (h : l.any isSlugChar = true) :
    subNonAlnum true l ≠ [] := by
  induction l with
  | nil => cases h
  | cons c cs ih =>
    rw [subNonAlnum]
    by_cases hc : isSlugChar c = true
    · rw [if_pos hc]
      exact List.cons_ne_nil _ _
    · rw [if_neg hc, if_pos rfl]
      refine ih ?_
      rw [List.any_cons] at h
      rcases Bool.or_eq_true_iff.mp h with h1 | h1
      · exact absurd h1 hc
      · exact h1

theorem dropTrail_any_slug (l : List Char)
    (h : dropTrail (fun c => !isSlugChar c) l ≠ []) :
    (dropTrail (fun c => !isSlugChar c) l).any isSlugChar = true := by
  rw [dropTrail] at h ⊢
  rcases hd : List.dropWhile (fun c => !isSlugChar c) l.reverse with _ | ⟨c, cs⟩
  · rw [hd] at h
    exact absurd rfl h
  · have hc := dropWhile_head_false _ _ _ _ hd
    have hc2 : isSlugChar c = true := by simpa using hc
    rw [List.any_reverse, List.any_cons, hc2]
    rfl

theorem dropTrail_hyphen_sub (l : List Char) :
    ∀ b, dropTrail (· = '-') (subNonAlnum b l)
      = subNonAlnum b (dropTrail (fun c => !isSlugChar c) l) := by
  induction l with
  | nil => intro b; rfl
  | cons c cs ih =>
    intro b
    by_cases hc : isSlugChar c = true
    case pos =>
      have hsub : subNonAlnum b (c :: cs) = c :: subNonAlnum false cs := by
        cases b <;> rw [subNonAlnum, if_pos hc]
      have hHc : decide (c = '-') = false := by
        simp [not_hyphen_of_isSlugChar hc]
      have hNc : (!isSlugChar c) = false := by simp [hc]
      rw [hsub, dropTrail_cons, dropTrail_cons (fun x => !isSlugChar x) c cs, ih false, hNc]
      by_cases hN : dropTrail (fun x => !isSlugChar x) cs = []
      case pos =>
        rw [if_pos (show subNonAlnum false (dropTrail (fun x => !isSlugChar x) cs) = [] by
              rw [hN]; rfl),
            if_pos hN, hHc]
        cases b <;> simp [subNonAlnum, hc]
      case neg =>
        have h1 : subNonAlnum false (dropTrail (fun x => !isSlugChar x) cs) ≠ [] :=
          sub_false_ne_nil _ hN
        rw [if_neg h1, if_neg hN]
        cases b <;> rw [subNonAlnum, if_pos hc]
    case neg =>
      have hNc : (!isSlugChar c) = true := by simp [hc]
      cases b
      case false =>
        rw [show subNonAlnum false (c :: cs) = '-' :: subNonAlnum true cs by
              rw [subNonAlnum, if_neg hc, if_neg (by simp)],
            dropTrail_cons, dropTrail_cons (fun x => !isSlugChar x) c cs, ih true, hNc]
        by_cases hN : dropTrail (fun x => !isSlugChar x) cs = []
        case pos =>
          rw [if_pos (show subNonAlnum true (dropTrail (fun x => !isSlugChar x) cs) = [] by
                rw [hN]; rfl),
              if_pos hN]
          simp [subNonAlnum]
        case neg =>
          have h1 : subNonAlnum true (dropTrail (fun x => !isSlugChar x) cs) ≠ [] :=
            sub_true_ne_nil _ (dropTrail_any_slug cs hN)
          rw [if_neg h1, if_neg hN, subNonAlnum, if_neg hc, if_neg (by simp)]
      case true =>
        rw [show subNonAlnum true (c :: cs) = subNonAlnum true cs by
              rw [subNonAlnum, if_neg hc, if_pos rfl],
            ih true, dropTrail_cons (fun x => !isSlugChar x) c cs, hNc]
        by_cases hN : dropTrail (fun x => !isSlugChar x) cs = []
        case pos =>
          rw [if_pos hN, hN]
          simp [subNonAlnum]
        case neg =>
          rw [if_neg hN, subNonAlnum, if_neg hc, if_pos rfl]

theorem collapseHyphens_sub (l : List Char) :
    ∀ b, collapseHyphens b (subNonAlnum b l) = subNonAlnum b l := by
  induction l with
  | nil => intro b; rfl
  | cons c cs ih =>
    intro b
    by_cases hc : isSlugChar c = true
    · have hsub : subNonAlnum b (c :: cs) = c :: subNonAlnum false cs := by
        cases b <;> rw [subNonAlnum, if_pos hc]
      have hcne : (c = '-') = False := not_hyphen_of_isSlugChar hc
      rw [hsub, collapseHyphens, if_neg (by rw [hcne]; exact id), ih false]
    · cases b
      · rw [subNonAlnum, if_neg hc, if_neg (by simp), collapseHyphens, if_pos rfl,
          if_neg (by simp), ih true]
      · rw [subNonAlnum, if_neg hc, if_pos rfl]
        exact ih true

theorem dropWhile_subset_fusion (p q : Char → Bool) (hpq : ∀ c, q c = true → p c = true) :
    ∀ l : List Char, List.dropWhile p (List.dropWhile q l) = List.dropWhile p l := by
  intro l
  induction l with
  | nil => rfl
  | cons c cs ih =>
    by_cases hq : q c = true
    · rw [List.dropWhile_cons_of_pos hq, ih, List.dropWhile_cons_of_pos (hpq c hq)]
    · rw [List.dropWhile_cons_of_neg hq]

theorem dropWhile_dropTrail_comm (p q : Char → Bool) :
    ∀ l : List Char, List.dropWhile p (dropTrail q l) = dropTrail q (List.dropWhile p l) := by
  intro l
  induction l with
  | nil => rfl
  | cons c cs ih =>
    rw [dropTrail_cons]
    by_cases hp : p c = true
    · rw [List.dropWhile_cons_of_pos hp, ← ih]
      by_cases hq : dropTrail q cs = []
      · rw [if_pos hq, hq]
        by_cases hqc : q c = true
        · rw [if_pos hqc]
        · rw [if_neg hqc, List.dropWhile_cons_of_pos hp]
      · rw [if_neg hq, List.dropWhile_cons_of_pos hp]
    · rw [List.dropWhile_cons_of_neg hp]
      by_cases hq : dropTrail q cs = []
      · rw [if_pos hq, dropTrail_cons, if_pos hq]
        by_cases hqc : q c = true
        · rw [if_pos hqc]
          rfl
        · rw [if_neg hqc, List.dropWhile_cons_of_neg hp]
      · rw [if_neg hq, dropTrail_cons, if_neg hq, List.dropWhile_cons_of_neg hp]

theorem dropTrail_subset_fusion (p q : Char → Bool) (hpq : ∀ c, q c = true → p c = true)
    (l : List Char) : dropTrail p (dropTrail q l) = dropTrail p l := by
  simp only [dropTrail, List.reverse_reverse, dropWhile_subset_fusion p q hpq]

theorem space_not_slug : ∀ c : Char, isPySpace c = true → (fun c => !isSlugChar c) c = true := by
  intro c h
  simp only [isPySpace, Bool.or_eq_true, decide_eq_true_eq] at h
  rcases h with ((((rfl | rfl) | rfl) | rfl) | rfl) | rfl <;> decide

theorem isPySpace_lowerChar (c : Char) : isPySpace (lowerChar c) = isPySpace c := by
  unfold lowerChar
  split <;> rfl

theorem map_lower_dropWhile (l : List Char) :
    (l.dropWhile isPySpace).map lowerChar = (l.map lowerChar).dropWhile isPySpace := by
  rw [List.dropWhile_map]
  have h : (isPySpace ∘ lowerChar) = isPySpace := by
    funext c
    exact isPySpace_lowerChar c
  rw [h]

theorem map_lower_dropTrail (l : List Char) :
    (dropTrail isPySpace l).map lowerChar = dropTrail isPySpace (l.map lowerChar) := by
  rw [dropTrail, dropTrail, List.map_reverse, map_lower_dropWhile, List.map_reverse]

theorem map_lower_stripBoth (l : List Char) :
    (stripBoth isPySpace l).map lowerChar = stripBoth isPySpace (l.map lowerChar) := by
  rw [stripBoth, stripBoth, map_lower_dropTrail, map_lower_dropWhile]

theorem stripBoth_sub_stripSpace (m : List Char) :
    stripBoth (· = '-') (subNonAlnum false (stripBoth isPySpace m))
      = stripBoth (· = '-') (subNonAlnum false m) := by
  simp only [stripBoth]
  rw [dropWhile_hyphen_sub_false, dropWhile_hyphen_sub_false,
    dropTrail_hyphen_sub, dropTrail_hyphen_sub]
  congr 1
  rw [dropWhile_dropTrail_comm, dropWhile_subset_fusion _ _ space_not_slug,
    dropTrail_subset_fusion _ _ space_not_slug]

theorem slugify_eq_spec (s : String) : slugify s = slugifySpec s := by
  have hT : stripBoth (· = '-') (collapseHyphens false (subNonAlnum false
        ((stripBoth isPySpace s.toList).map lowerChar)))
      = stripBoth (· = '-') (subNonAlnum false (s.toList.map lowerChar)) := by
    rw [collapseHyphens_sub, map_lower_stripBoth, stripBoth_sub_stripSpace]
  simp only [slugify, slugifySpec, hT]

/-- C5: `slugify` agrees with its specification — lowercase, collapse every
run of non-alphanumeric characters to one hyphen, strip leading and trailing
hyphens, fall back to the literal `feed` on an empty result — on every input
string; in particular on the two quoted examples. -/
theorem slugify_matches_spec (s : String) :
    slugify "Il Sole 24 Ore!" = "il-sole-24-ore" ∧ slugify "" = "feed" ∧
    slugify s = slugifySpec s :=
  ⟨by decide, by decide, slugify_eq_spec s⟩

end BatchMakeFeeds
